import Mathlib

/-
Verification of the GHB (Global History Buffer) prefetcher core:
a shallow embedding of `GHBPrefetcher::calculatePrefetch` (ghb.cc) and of the
`GHBHistory` helper (ghb_history.cc) in Lean 4, with theorems about the
page-boundary policy, the early stride detector, pattern matching, the
pattern-table invariants, chain building, insertion, and the fallback
predictor.

Machine integers are modelled as `Nat`/`Int` with explicit reductions:
`uint32` counters wrap modulo 2^32 (`u32`), `uint64` addresses and sequence
numbers wrap modulo 2^64 (`u64`), and `int64` deltas live in
[-2^63, 2^63) via `wrapS64`.  `std::map`/`std::unordered_map` are modelled
as association lists (`alookup`/`aset`/`aerase`); iteration order is the
list order.  `std::sort` (unstable, but any order consistent with the
comparator is allowed) is modelled by the stable `List.insertionSort`,
which is one valid refinement.
-/

namespace GHB

/-! ## Association lists (model of std::map / std::unordered_map) -/

/-- Lookup of a key in an association list (first match). -/
def alookup {α β : Type} [DecidableEq α] : List (α × β) → α → Option β
  | [], _ => none
  | (k, v) :: rest, key => if k = key then some v else alookup rest key

/-- Insert-or-assign: replace the value at the key if present, else append. -/
def aset {α β : Type} [DecidableEq α] : List (α × β) → α → β → List (α × β)
  | [], key, v => [(key, v)]
  | (k, w) :: rest, key, v =>
    if k = key then (key, v) :: rest else (k, w) :: aset rest key v

/-- Erase a key.  Real `std::map`s never hold duplicate keys, so erasing by
filtering is equivalent to erasing the iterator found by `find`. -/
def aerase {α β : Type} [DecidableEq α] (m : List (α × β)) (key : α) :
    List (α × β) :=
  m.filter (fun p => p.1 ≠ key)

theorem alookup_aset_self {α β : Type} [DecidableEq α]
    (m : List (α × β)) (k : α) (v : β) : alookup (aset m k v) k = some v := by
  induction m with
  | nil => simp [aset, alookup]
  | cons p rest ih =>
    by_cases h : p.1 = k
    · simp [aset, h, alookup]
    · simp [aset, h, alookup, ih]

theorem alookup_aset_ne {α β : Type} [DecidableEq α]
    (m : List (α × β)) (k k' : α) (v : β) (h : k' ≠ k) :
    alookup (aset m k v) k' = alookup m k' := by
  have hk : ¬(k = k') := fun hh => h hh.symm
  induction m with
  | nil => simp [aset, alookup, hk]
  | cons p rest ih =>
    obtain ⟨a, b⟩ := p
    by_cases hp : a = k
    · have ha : ¬(a = k') := by rw [hp]; exact hk
      simp [aset, hp, alookup, hk, ha]
    · simp [aset, hp, alookup, ih]

theorem alookup_aerase_self {α β : Type} [DecidableEq α]
    (m : List (α × β)) (k : α) : alookup (aerase m k) k = none := by
  induction m with
  | nil => simp [aerase, alookup]
  | cons p rest ih =>
    by_cases h : p.1 = k
    · simpa [aerase, h] using ih
    · simpa [aerase, alookup, h] using ih

/-- Members of `aset m k v` are either the new pair or old members. -/
theorem mem_aset {α β : Type} [DecidableEq α]
    (m : List (α × β)) (k : α) (v : β) (p : α × β) (hp : p ∈ aset m k v) :
    p = (k, v) ∨ p ∈ m := by
  induction m with
  | nil => simpa [aset] using hp
  | cons q rest ih =>
    by_cases h : q.1 = k
    · simp only [aset, h, if_pos rfl] at hp
      rcases List.mem_cons.mp hp with h1 | h1
      · exact Or.inl h1
      · exact Or.inr (List.mem_cons_of_mem _ h1)
    · simp only [aset, h, if_neg h] at hp
      rcases List.mem_cons.mp hp with h1 | h1
      · exact Or.inr (h1 ▸ List.mem_cons_self _ _)
      · rcases ih h1 with h2 | h2
        · exact Or.inl h2
        · exact Or.inr (List.mem_cons_of_mem _ h2)

/-! ## Machine-integer helpers -/

/-- 2^64, the modulus of `uint64` arithmetic. -/
def u64 : Nat := 18446744073709551616

/-- 2^32, the modulus of `uint32` arithmetic. -/
def u32 : Nat := 4294967296

/-- Reinterpret a `uint64` value as a signed `int64` (two's complement). -/
def toInt64 (n : Nat) : Int :=
  if n % u64 < 9223372036854775808 then ((n % u64 : Nat) : Int)
  else ((n % u64 : Nat) : Int) - (u64 : Int)

/-- Cast a signed value back to `uint64` (two's complement wrap). -/
def wrapU64 (z : Int) : Nat := (z % (u64 : Int)).toNat

/-- Wrap a signed value into the `int64` range [-2^63, 2^63). -/
def wrapS64 (z : Int) : Int :=
  (z + 9223372036854775808) % (u64 : Int) - 9223372036854775808

/-- `int64` subtraction of two `uint64` addresses, as the code's
`static_cast<int64_t>(a) - static_cast<int64_t>(b)` (two's complement). -/
def int64Sub (a b : Nat) : Int := wrapS64 (toInt64 a - toInt64 b)

/-- `uint32` subtraction `a - b` with wrap-around on underflow (the code
subtracts constants from an `unsigned` confidence threshold). -/
def usub32 (a b : Nat) : Nat := (a % u32 + u32 - b % u32) % u32

/-! ## Data model (ghb_history.hh as described by the spec, plus ghb.hh) -/

/-- Configuration after the constructor clamps (`historySize ≥ 1` etc. hold
for really constructed prefetchers; theorems take them as hypotheses where
needed).  `blkSize` is the cache-block size used by the enclosing
framework's `blockAddress`. -/
structure GHBConfig where
  historySize : Nat
  patternLength : Nat
  degree : Nat
  usePC : Bool
  pageBytes : Nat
  confidenceThreshold : Nat
  blkSize : Nat
deriving DecidableEq, Repr

/-- Constructor clamping, from `GHBPrefetcher::GHBPrefetcher` and
`GHBHistory::GHBHistory`: sizes clamped to at least 1, confidence to
[0, 100]. -/
def mkConfig (historySize patternLength degree : Nat) (usePC : Bool)
    (pageBytes confidenceThreshold blkSize : Nat) : GHBConfig :=
  { historySize := max 1 historySize
    patternLength := max 1 patternLength
    degree := max 1 degree
    usePC := usePC
    pageBytes := max 1 pageBytes
    confidenceThreshold := min 100 confidenceThreshold
    blkSize := blkSize }

/-- Per-key back link of a history entry.  Field defaults model the value
of `LinkInfo{}` described by the spec: no predecessor, key invalid. -/
structure LinkInfo where
  prev : Int := -1
  prevSeq : Nat := 0
  keyValid : Bool := false
  keyValue : Nat := 0
deriving DecidableEq, Repr

instance : Inhabited LinkInfo := ⟨{}⟩

/-- The two correlation keys. -/
inductive CorrelationKey where
  | PC
  | Page
deriving DecidableEq, Repr

/-- One slot of the circular history buffer. -/
structure GHBEntry where
  addr : Nat := 0
  seq : Nat := 0
  linkPC : LinkInfo := {}
  linkPage : LinkInfo := {}
deriving DecidableEq, Repr

instance : Inhabited GHBEntry := ⟨{}⟩

/-- Read the link of an entry for a correlation key. -/
def getLink (e : GHBEntry) : CorrelationKey → LinkInfo
  | .PC => e.linkPC
  | .Page => e.linkPage

/-- A pattern-table entry: per-delta `uint32` counts and a `uint32` total. -/
structure PatternEntry where
  counts : List (Int × Nat) := []
  total : Nat := 0
deriving DecidableEq, Repr

instance : Inhabited PatternEntry := ⟨{}⟩

/-- The pattern table: DeltaPair (prev, cur) to PatternEntry. -/
abbrev Table := List ((Int × Int) × PatternEntry)

/-- The full state of the `GHBHistory` helper. -/
structure GHBState where
  history : List GHBEntry
  lastPC : List (Nat × Nat)
  lastPage : List (Nat × Nat)
  head : Nat
  filled : Bool
  seqCounter : Nat
  patternTable : Table
deriving DecidableEq, Repr

/-- The last-index map of a state for a correlation key. -/
def lastOf (s : GHBState) : CorrelationKey → List (Nat × Nat)
  | .PC => s.lastPC
  | .Page => s.lastPage

/-- One observed access: block address and optional PC. -/
structure AccessInfo where
  addr : Nat
  pc : Option Nat := none
deriving DecidableEq, Repr

/-- Post-construction state (`GHBHistory::GHBHistory`). -/
def mkGHB (cfg : GHBConfig) : GHBState :=
  { history := List.replicate cfg.historySize {}
    lastPC := []
    lastPage := []
    head := 0
    filled := false
    seqCounter := 1
    patternTable := [] }

/-- `GHBHistory::reset`: zero every slot, clear the maps and the table. -/
def resetState (s : GHBState) : GHBState :=
  { history := s.history.map (fun _ => {})
    lastPC := []
    lastPage := []
    head := 0
    filled := false
    seqCounter := 1
    patternTable := [] }

/-! ## removeIndexMappings / assignCorrelation / insert -/

/-- One key's part of `GHBHistory::removeIndexMappings`: erase the
last-index entry of the victim's key value when it still points at the
evicted slot. -/
def removeMapFor (m : List (Nat × Nat)) (l : LinkInfo) (slot : Nat) :
    List (Nat × Nat) :=
  if l.keyValid then
    match alookup m l.keyValue with
    | some s => if s = slot then aerase m l.keyValue else m
    | none => m
  else m

/-- `GHBHistory::removeIndexMappings`: scrub both keys of the slot's
occupant and mark its links key-invalid. -/
def removeIndexMappings (s : GHBState) (slot : Nat) : GHBState :=
  let victim := s.history.getD slot {}
  let lastPC := removeMapFor s.lastPC victim.linkPC slot
  let lastPage := removeMapFor s.lastPage victim.linkPage slot
  let victim2 := { victim with
    linkPC := { victim.linkPC with keyValid := false }
    linkPage := { victim.linkPage with keyValid := false } }
  { s with lastPC := lastPC, lastPage := lastPage
           history := s.history.set slot victim2 }

/-- `GHBHistory::assignCorrelation` for one key: build the link from the
last-index map (previous slot and its current seq), then point the map at
the new slot. -/
def assignCorrelation (hist : List GHBEntry) (m : List (Nat × Nat))
    (slot : Nat) (value : Nat) : LinkInfo × List (Nat × Nat) :=
  let base : LinkInfo :=
    { prev := -1, prevSeq := 0, keyValid := true, keyValue := value }
  let link :=
    match alookup m value with
    | some s => { base with prev := (s : Int), prevSeq := (hist.getD s {}).seq }
    | none => base
  (link, aset m value slot)

/-- The write phase of `GHBHistory::insert`, broken into the statements of
the source: `entry.addr = ...; entry.seq = sequenceCounter++` gives
`insertE1`/`insertHist1`; the PC branch gives `insertLpc`/`insertLastPC`
(with a cleared `LinkInfo{}` when not live); the Page call gives
`insertLpg`/`insertLastPage`. -/
def insertE1 (s1 : GHBState) (a : AccessInfo) : GHBEntry :=
  { s1.history.getD s1.head {} with addr := a.addr, seq := s1.seqCounter }

def insertHist1 (s1 : GHBState) (a : AccessInfo) : List GHBEntry :=
  s1.history.set s1.head (insertE1 s1 a)

/-- The PC correlation is live iff `usePC` and the access carries a PC. -/
def pcLive (cfg : GHBConfig) (a : AccessInfo) : Prop :=
  cfg.usePC = true ∧ a.pc.isSome = true

instance (cfg : GHBConfig) (a : AccessInfo) : Decidable (pcLive cfg a) :=
  instDecidableAnd

def insertLpc (cfg : GHBConfig) (s1 : GHBState) (a : AccessInfo) : LinkInfo :=
  if pcLive cfg a then
    (assignCorrelation (insertHist1 s1 a) s1.lastPC s1.head (a.pc.getD 0)).1
  else {}

def insertLastPC (cfg : GHBConfig) (s1 : GHBState) (a : AccessInfo) :
    List (Nat × Nat) :=
  if pcLive cfg a then
    (assignCorrelation (insertHist1 s1 a) s1.lastPC s1.head (a.pc.getD 0)).2
  else s1.lastPC

def insertE2 (cfg : GHBConfig) (s1 : GHBState) (a : AccessInfo) : GHBEntry :=
  { insertE1 s1 a with linkPC := insertLpc cfg s1 a }

def insertHist2 (cfg : GHBConfig) (s1 : GHBState) (a : AccessInfo) :
    List GHBEntry :=
  (insertHist1 s1 a).set s1.head (insertE2 cfg s1 a)

def insertLpg (cfg : GHBConfig) (s1 : GHBState) (a : AccessInfo) : LinkInfo :=
  (assignCorrelation (insertHist2 cfg s1 a) s1.lastPage s1.head
    (a.addr / cfg.pageBytes)).1

def insertLastPage (cfg : GHBConfig) (s1 : GHBState) (a : AccessInfo) :
    List (Nat × Nat) :=
  (assignCorrelation (insertHist2 cfg s1 a) s1.lastPage s1.head
    (a.addr / cfg.pageBytes)).2

def insertE3 (cfg : GHBConfig) (s1 : GHBState) (a : AccessInfo) : GHBEntry :=
  { insertE2 cfg s1 a with linkPage := insertLpg cfg s1 a }

def insertHist3 (cfg : GHBConfig) (s1 : GHBState) (a : AccessInfo) :
    List GHBEntry :=
  (insertHist2 cfg s1 a).set s1.head (insertE3 cfg s1 a)

def insertWrite (cfg : GHBConfig) (s1 : GHBState) (a : AccessInfo) :
    GHBState × Int :=
  ({ s1 with
      history := insertHist3 cfg s1 a
      lastPC := insertLastPC cfg s1 a
      lastPage := insertLastPage cfg s1 a
      head := (s1.head + 1) % cfg.historySize
      filled := s1.filled || decide ((s1.head + 1) % cfg.historySize = 0)
      seqCounter := (s1.seqCounter + 1) % u64 },
   (s1.head : Int))

/-- `GHBHistory::insert`: evict the outgoing occupant when filled, then
run the write phase. -/
def insert (cfg : GHBConfig) (s : GHBState) (a : AccessInfo) :
    GHBState × Int :=
  if cfg.historySize = 0 then (s, -1)
  else insertWrite cfg (if s.filled then removeIndexMappings s s.head else s) a

/-! ## buildPattern -/

/-- The chain walk of `GHBHistory::buildPattern`: follow `link.prev` while
it is a valid slot whose `seq` still matches `link.prevSeq`, collecting the
signed address deltas; the fuel is the remaining capacity
(`patternLength - deltas.size()`). -/
def buildPatternGo (hist : List GHBEntry) (k : CorrelationKey) :
    Nat → Nat → List Int
  | 0, _ => []
  | fuel + 1, cur =>
    if (getLink (hist.getD cur {}) k).prev < 0 then []
    else
      if (hist.getD (getLink (hist.getD cur {}) k).prev.toNat {}).seq ≠
          (getLink (hist.getD cur {}) k).prevSeq then []
      else
        int64Sub (hist.getD cur {}).addr
            (hist.getD (getLink (hist.getD cur {}) k).prev.toNat {}).addr ::
          buildPatternGo hist k fuel (getLink (hist.getD cur {}) k).prev.toNat

/-- `GHBHistory::buildPattern`.  Returns the reverse-chronological deltas
and whether at least one was produced. -/
def buildPattern (cfg : GHBConfig) (s : GHBState) (index : Int)
    (k : CorrelationKey) : List Int × Bool :=
  if index < 0 ∨ (s.history.length : Int) ≤ index then ([], false)
  else
    let ds := buildPatternGo s.history k cfg.patternLength index.toNat
    (ds, !ds.isEmpty)

/-- The slots visited by the chain walk of `buildPattern`, in order. -/
def chainSlots (hist : List GHBEntry) (k : CorrelationKey) :
    Nat → Nat → List Nat
  | 0, _ => []
  | fuel + 1, cur =>
    if (getLink (hist.getD cur {}) k).prev < 0 then []
    else
      if (hist.getD (getLink (hist.getD cur {}) k).prev.toNat {}).seq ≠
          (getLink (hist.getD cur {}) k).prevSeq then []
      else
        (getLink (hist.getD cur {}) k).prev.toNat ::
          chainSlots hist k fuel (getLink (hist.getD cur {}) k).prev.toNat

/-! ## updatePatternTable -/

/-- One table increment: bump `counts[delta]` and `total` of the entry at
the delta-pair key, creating the entry on first touch (`operator[]`).
Both counters are `uint32` and wrap modulo 2^32. -/
def bump (t : Table) (inc : (Int × Int) × Int) : Table :=
  aset t inc.1
    { counts := aset ((alookup t inc.1).getD {}).counts inc.2
        (((alookup ((alookup t inc.1).getD {}).counts inc.2).getD 0 + 1) % u32)
      total := (((alookup t inc.1).getD {}).total + 1) % u32 }

/-- The increments performed by iteration `i` of the training loop of
`GHBHistory::updatePatternTable`, in program order: the 2-delta rule, the
chained 3/4/5-delta rules, the overlap rules, and the reverse rule. -/
def incsAt (c : List Int) (i : Nat) : List ((Int × Int) × Int) :=
  let n := c.length
  let g := fun j => c.getD j 0
  [((g i, g (i + 1)), g (i + 2))]
  ++ (if i + 3 < n then
        [((g (i + 1), g (i + 2)), g (i + 3))]
        ++ (if i + 4 < n then
              [((g (i + 2), g (i + 3)), g (i + 4))]
              ++ (if i + 5 < n then [((g (i + 3), g (i + 4)), g (i + 5))]
                  else [])
            else [])
      else [])
  ++ (if i + 3 < n ∧ 0 < i then
        [((g (i - 1), g i), g (i + 2))]
        ++ (if 1 < i ∧ i + 4 < n then [((g (i - 2), g (i - 1)), g (i + 2))]
            else [])
      else [])
  ++ (if i + 2 < n ∧ 0 < i then [((-(g i), -(g (i + 1))), -(g (i + 2)))]
      else [])

/-- All increments of one `updatePatternTable(chronological)` call: the
loop runs `i` over `i + 2 < n`. -/
def incList (c : List Int) : List ((Int × Int) × Int) :=
  (List.range (c.length - 2)).flatMap (incsAt c)

/-- `GHBHistory::updatePatternTable`: no-op below three deltas, otherwise
apply every increment of the training loop. -/
def updatePT (t : Table) (c : List Int) : Table :=
  if c.length < 3 then t else (incList c).foldl bump t

/-! ## findPatternMatch -/

/-- Integer confidence `count * 100 / total`; the multiplication is done in
`unsigned` (32-bit) arithmetic. -/
def confOf (e : PatternEntry) (cnt : Nat) : Nat := cnt * 100 % u32 / e.total

/-- The adaptive confidence threshold ladder of `findPatternMatch`
(percent subtracted from the baseline in `unsigned` arithmetic, floored). -/
def adaptiveThreshold (ct total : Nat) : Nat :=
  if 50 ≤ total then max 12 (usub32 ct 30)
  else if 40 ≤ total then max 15 (usub32 ct 25)
  else if 30 ≤ total then max 18 (usub32 ct 22)
  else if 20 ≤ total then max 20 (usub32 ct 18)
  else if 12 ≤ total then max 22 (usub32 ct 15)
  else if 6 ≤ total then max 25 (usub32 ct 10)
  else if 3 ≤ total then max 30 (usub32 ct 8)
  else if 2 ≤ total then max 35 (usub32 ct 5)
  else ct

/-- The candidate keys: the last two deltas, then the pair one earlier and
the pair two earlier when available. -/
def patternKeys (c : List Int) : List (Int × Int) :=
  let n := c.length
  [(c.getD (n - 2) 0, c.getD (n - 1) 0)]
  ++ (if 3 ≤ n then [(c.getD (n - 3) 0, c.getD (n - 2) 0)] else [])
  ++ (if 4 ≤ n then [(c.getD (n - 4) 0, c.getD (n - 3) 0)] else [])

/-- Merge a weighted candidate: take the maximum score when the delta is
already present, else append. -/
def mergeCand (cs : List (Int × Nat)) (d : Int) (sc : Nat) :
    List (Int × Nat) :=
  if (cs.find? (fun p => p.1 = d)).isSome then
    cs.map (fun p => if p.1 = d then (p.1, max p.2 sc) else p)
  else cs ++ [(d, sc)]

/-- The weighted score of one candidate: confidence plus a count boost,
times the pattern weight, in `unsigned` arithmetic. -/
def wscore (cnt conf weight : Nat) : Nat :=
  (conf + (if 5 ≤ cnt then 8 else if 3 ≤ cnt then 3 else 0)) % u32
    * weight % u32

/-- Accumulator of the candidate-collection loop of `findPatternMatch`. -/
structure ScanState where
  cands : List (Int × Nat)
  bestAdaptive : Nat
  bestEntry : Option PatternEntry
  bestConf : Nat
deriving Repr

/-- The best stored confidence of an entry. -/
def bestConfOf (e : PatternEntry) : Nat :=
  e.counts.foldl (fun m p => max m (confOf e p.2)) 0

/-- The condition under which one key replaces the tracked best entry:
primary key, best confidence at or above the adaptive threshold, and
either no best entry yet or a strictly higher confidence. -/
def pkBetter (st : ScanState) (ik1 at_ ebc : Nat) : Prop :=
  ik1 = 0 ∧ at_ ≤ ebc ∧
    (st.bestEntry.isNone || decide (st.bestConf < ebc)) = true

instance (st : ScanState) (ik1 at_ ebc : Nat) :
    Decidable (pkBetter st ik1 at_ ebc) := instDecidableAnd

/-- The candidate merge of one entry's counts into the accumulator. -/
def candFold (e : PatternEntry) (at_ w : Nat) (cs0 : List (Int × Nat)) :
    List (Int × Nat) :=
  e.counts.foldl (fun cs p =>
    if at_ ≤ confOf e p.2 then mergeCand cs p.1 (wscore p.2 (confOf e p.2) w)
    else cs) cs0

def processKey (ct : Nat) (t : Table) (st : ScanState)
    (ik : Nat × (Int × Int)) : ScanState :=
  match alookup t ik.2 with
  | none => st
  | some e =>
    if e.total < 2 then st
    else
      { cands := candFold e (adaptiveThreshold ct e.total)
          (if ik.1 = 0 then 5 else 1) st.cands
        bestAdaptive :=
          if adaptiveThreshold ct e.total < st.bestAdaptive then
            adaptiveThreshold ct e.total
          else st.bestAdaptive
        bestEntry :=
          if pkBetter st ik.1 (adaptiveThreshold ct e.total) (bestConfOf e) then
            some e
          else st.bestEntry
        bestConf :=
          if pkBetter st ik.1 (adaptiveThreshold ct e.total) (bestConfOf e) then
            bestConfOf e
          else st.bestConf }

/-- The full candidate scan over the pattern keys. -/
def fpmScan (cfg : GHBConfig) (t : Table) (c : List Int) : ScanState :=
  ((patternKeys c).enum).foldl (processKey cfg.confidenceThreshold t)
    ⟨[], cfg.confidenceThreshold, none, 0⟩

/-- Score-descending order used to sort candidates. -/
def scoreLe (a b : Int × Nat) : Prop := b.2 ≤ a.2

instance : DecidableRel scoreLe := fun _ b => Nat.decLe b.2 _

/-- The effective prefetch degree ladder of `findPatternMatch`.  The two
`degree * 1.8` / `degree * 1.5` double multiplications of the source are
modelled exactly as `9 * d / 5` and `3 * d / 2` (the doubles are exact for
every realistic degree); the `static_cast<size_t>(degree * k)` operands
wrap in `unsigned` first, hence the `% u32`. -/
def effDegree (degree : Nat) (st : ScanState) : Nat :=
  match st.bestEntry with
  | none => degree + 2
  | some e =>
    if 90 ≤ st.bestConf ∧ 20 ≤ e.total then min (degree * 10) (degree * 10 % u32)
    else if 85 ≤ st.bestConf ∧ 15 ≤ e.total then min (degree * 8) (degree * 8 % u32)
    else if 80 ≤ st.bestConf ∧ 10 ≤ e.total then min (degree * 6) (degree * 6 % u32)
    else if 70 ≤ st.bestConf ∧ 5 ≤ e.total then min (degree * 4) (degree * 4 % u32)
    else if 60 ≤ st.bestConf ∧ 3 ≤ e.total then min (degree * 2) (degree * 2 % u32)
    else if 50 ≤ st.bestConf ∧ 2 ≤ e.total then min (degree * 2) (degree * 2 % u32)
    else if 40 ≤ st.bestConf then min (degree + 4) (9 * degree / 5)
    else if 30 ≤ st.bestConf then min (degree + 2) (3 * degree / 2)
    else degree + 2

/-- The initial emission (step "emit"): sorted candidates, truncated to the
effective degree. -/
def fpmInitial (cfg : GHBConfig) (t : Table) (c : List Int) : List Int :=
  let st := fpmScan cfg t c
  ((List.insertionSort scoreLe st.cands).map (fun p => p.1)).take
    (effDegree cfg.degree st)

/-- The lenient backfill loop over one entry's counts: push candidates at
or above the threshold, skipping zero deltas and duplicates, while the
prediction list is short. -/
def backfillLoop (eff th : Nat) (e : PatternEntry) (pred0 : List Int) :
    List Int :=
  e.counts.foldl (fun pred p =>
    if eff ≤ pred.length then pred
    else if th ≤ confOf e p.2 ∧ pred.all (fun x => x ≠ p.1) ∧ p.1 ≠ 0 then
      pred ++ [p.1]
    else pred) pred0

/-- Backfill from the secondary pattern keys (each requiring total ≥ 3). -/
def backfillSecondary (t : Table) (eff th : Nat)
    (keys : List (Int × Int)) (pred0 : List Int) : List Int :=
  (keys.drop 1).foldl (fun pred key =>
    if eff ≤ pred.length then pred
    else
      match alookup t key with
      | none => pred
      | some e => if e.total < 3 then pred else backfillLoop eff th e pred)
    pred0

/-- Add the single best non-zero, non-duplicate chained candidate (the
inner loop of chained extrapolation breaks after one push). -/
def addFirstOk (eff : Nat) (pred : List Int) :
    List (Int × Nat) → List Int
  | [] => pred
  | cand :: rest =>
    if eff ≤ pred.length then pred
    else if pred.all (fun x => x ≠ cand.1) ∧ cand.1 ≠ 0 then pred ++ [cand.1]
    else addFirstOk eff pred rest

/-- The chained-extrapolation loop of `findPatternMatch`, with its attempt
counter and `effective_degree * 3` fuel. -/
def chainStage (t : Table) (eff bestAdaptive : Nat) (lastDelta : Int) :
    Nat → Nat → List Int → List Int
  | 0, _, pred => pred
  | fuel + 1, attempt, pred =>
    if eff ≤ pred.length then pred
    else
      let base := if attempt = 0 then pred.getD 0 0
                  else pred.getD (pred.length - 1) 0
      let prev := if attempt = 0 then lastDelta
                  else if 1 < pred.length then pred.getD (pred.length - 2) 0
                  else lastDelta
      match alookup t (prev, base) with
      | none => pred
      | some e =>
        if e.total < 1 then pred
        else
          let th := if attempt = 0 then max bestAdaptive 25
                    else max (usub32 bestAdaptive 10) 20
          let cands := e.counts.foldl (fun cs p =>
            let cf := confOf e p.2
            if th ≤ cf then cs ++ [(p.1, cf)] else cs) []
          let sorted := List.insertionSort scoreLe cands
          chainStage t eff bestAdaptive lastDelta fuel (attempt + 1)
            (addFirstOk eff pred sorted)

/-- The first stride-amplification push loop: append `stride * (size + 1)`
until the effective degree, breaking on a ±2 near-duplicate. -/
def amp1Push (eff : Nat) (stride : Int) : Nat → List Int → List Int
  | 0, pred => pred
  | fuel + 1, pred =>
    if eff ≤ pred.length then pred
    else
      let amplified := stride * ((pred.length : Int) + 1)
      if pred.any (fun x => (x - amplified).natAbs ≤ 2) then pred
      else amp1Push eff stride fuel (pred ++ [amplified])

/-- Stride amplification from an existing prediction: the first prediction
within ±2 of the last delta, non-zero and below 300 in magnitude, is
amplified.  The `amplify_count` adjustment branches of the source reduce to
`effective_degree - predicted.size()` (each takes `min` with exactly that
value), so the push loop is bounded by the effective degree alone. -/
def amp1Stage (eff : Nat) (lastDelta : Int) (pred : List Int) : List Int :=
  match pred.find? (fun p =>
      (p = lastDelta ∨ (p - lastDelta).natAbs ≤ 2) ∧ 0 < p.natAbs ∧
        p.natAbs < 300) with
  | none => pred
  | some p => amp1Push eff p eff pred

/-- The run length of values within ±2 of the stride candidate at the tail
of the chronological sequence (the scan looks at most five further back,
counting the last delta itself as 1). -/
def strideCount (c : List Int) (sc : Int) : Nat :=
  let n := c.length
  1 + (((List.range 5).filterMap (fun j =>
          if j + 2 ≤ n then some (c.getD (n - 2 - j) 0) else none)).takeWhile
        (fun d => d = sc ∨ (d - sc).natAbs ≤ 2)).length

/-- The second stride-amplification push loop: append `sc * (i + 1)` for
`i < amplifyCount`, skipping (not breaking on) ±2 near-duplicates. -/
def amp2Push (eff : Nat) (sc : Int) (amplifyCount : Nat)
    (pred0 : List Int) : List Int :=
  (List.range amplifyCount).foldl (fun pred (i : Nat) =>
    if eff ≤ pred.length then pred
    else
      if pred.any (fun x => (x - sc * ((i : Int) + 1)).natAbs ≤ 2) then pred
      else pred ++ [sc * ((i : Int) + 1)]) pred0

/-- Both stride-amplification passes (the history-based pass is nested
inside the guard of the prediction-based pass in the source). -/
def ampStage (eff : Nat) (c : List Int) (pred : List Int) : List Int :=
  if pred.length < eff ∧ 2 ≤ c.length then
    let l := c.getD (c.length - 1) 0
    let pred1 := amp1Stage eff l pred
    if pred1.length < eff ∧ 3 ≤ c.length then
      if l ≠ 0 ∧ l.natAbs < 300 then
        if 2 ≤ strideCount c l then
          amp2Push eff l (eff - pred1.length) pred1
        else pred1
      else pred1
    else pred1
  else pred

/-- The secondary half of the lenient backfill. -/
def backfillStage2 (t : Table) (eff ba : Nat) (keys : List (Int × Int))
    (p1 : List Int) : List Int :=
  if p1.length < eff ∧ 1 < keys.length then
    backfillSecondary t eff (max 25 (usub32 ba 5)) keys p1
  else p1

/-- The lenient-backfill stage: re-scan the primary entry with
`max(25, adaptive - 10)`, then the secondary entries (total ≥ 3) with
`max(25, adaptive - 5)`, when the prediction list is still short. -/
def backfillStage (t : Table) (eff ba : Nat) (keys : List (Int × Int))
    (pred : List Int) : List Int :=
  if pred.length < eff then
    backfillStage2 t eff ba keys
      (match alookup t (keys.getD 0 (0, 0)) with
       | some e => backfillLoop eff (max 25 (usub32 ba 10)) e pred
       | none => pred)
  else pred

/-- The chained-extrapolation stage with its entry guard. -/
def chainWrap (t : Table) (eff ba : Nat) (c : List Int)
    (pred : List Int) : List Int :=
  if pred ≠ [] ∧ pred.length < eff ∧ 2 ≤ c.length then
    chainStage t eff ba (c.getD (c.length - 1) 0) (eff * 3) 0 pred
  else pred

/-- `GHBHistory::findPatternMatch`: candidate scan, emission, lenient
backfill, chained extrapolation and stride amplification. -/
def findPatternMatch (cfg : GHBConfig) (t : Table) (c : List Int) :
    Bool × List Int :=
  if c.length < 2 then (false, [])
  else
    if (fpmScan cfg t c).cands = [] then (false, [])
    else
      let eff := effDegree cfg.degree (fpmScan cfg t c)
      let pred :=
        ampStage eff c
          (chainWrap t eff (fpmScan cfg t c).bestAdaptive c
            (backfillStage t eff (fpmScan cfg t c).bestAdaptive
              (patternKeys c) (fpmInitial cfg t c)))
      (!pred.isEmpty, pred)

/-! ## fallbackPattern -/

/-- The frequency/recency tally of `fallbackPattern`: over the last
`min(n, patternLength)` deltas (newest first), count each non-zero delta
and keep the maximum of `n - i + 1` as its recency. -/
def fbBuild (c : List Int) (lookback : Nat) : List (Int × Nat × Nat) :=
  (List.range lookback).foldl (fun m j =>
    if c.getD (c.length - j - 1) 0 ≠ 0 then
      aset m (c.getD (c.length - j - 1) 0)
        (((alookup m (c.getD (c.length - j - 1) 0)).getD (0, 0)).1 + 1,
          max ((alookup m (c.getD (c.length - j - 1) 0)).getD (0, 0)).2
            (c.length - (c.length - j) + 1))
    else m) []

/-- The strict comparator of the fallback sort: weighted score
`3 * freq + 2 * recency` descending, ties preferring positive deltas, then
smaller magnitude. -/
def fbLess (m : List (Int × Nat × Nat)) (a b : Int × Nat) : Bool :=
  let ra := ((alookup m a.1).getD (0, 0)).2
  let rb := ((alookup m b.1).getD (0, 0)).2
  let sa := a.2 * 3 + ra * 2
  let sb := b.2 * 3 + rb * 2
  if sa ≠ sb then decide (sb < sa)
  else if 0 < a.1 ∧ b.1 ≤ 0 then true
  else if a.1 ≤ 0 ∧ 0 < b.1 then false
  else decide (a.1.natAbs < b.1.natAbs)

/-- The total preorder induced by the strict comparator (`a` may precede
`b` iff `b` is not strictly less than `a`), used for the model sort. -/
def fbLe (m : List (Int × Nat × Nat)) (a b : Int × Nat) : Prop :=
  fbLess m b a = false

instance (m : List (Int × Nat × Nat)) : DecidableRel (fbLe m) :=
  fun a b => instDecidableEqBool (fbLess m b a) false

/-- The consecutive-run scan of the fallback stride check: walk `i` from
`size` down while `i > 0` and `i > size - 8` in `size_t` arithmetic,
breaking at the first delta different from the candidate.  For fewer than
eight deltas `size - 8` wraps to at least `2^64 - 8`, the guard fails at
once and the count stays zero; both guards are antitone in the iteration,
so the visited elements are an initial segment of the eight trailing
positions. -/
def consecCount (c : List Int) (cand : Int) : Nat :=
  (((List.range 8).filterMap (fun j =>
      if 0 < c.length - j ∧ (c.length + u64 - 8) % u64 < c.length - j then
        some (c.getD (c.length - j - 1) 0)
      else none)).takeWhile
    (fun d => d = cand)).length

/-- The fallback stride prefetch-count ladder (`degree * 1.5` modelled as
`3 * d / 2`, exact for the double; the `unsigned` products wrap first). -/
def fbPrefetchCount (d cc : Nat) : Nat :=
  if 8 ≤ cc then min (d * 6) (d * 6 % u32)
  else if 6 ≤ cc then min (d * 5) (d * 5 % u32)
  else if 4 ≤ cc then min (d * 4) (d * 4 % u32)
  else if 2 ≤ cc then min (d * 2) (d * 2 % u32)
  else min (d + 2) (3 * d / 2)

/-- The non-stride tail of `fallbackPattern`: up to `degree` sorted deltas,
then backfill with remaining unique non-zero deltas scanning the whole
chronological sequence from the end. -/
def fbTail (cfg : GHBConfig) (c : List Int) (sorted : List (Int × Nat)) :
    List Int :=
  let pred := (sorted.map (fun p => p.1)).take cfg.degree
  c.reverse.foldl (fun pred d =>
    if cfg.degree ≤ pred.length then pred
    else if d ≠ 0 ∧ pred.all (fun x => x ≠ d) then pred ++ [d]
    else pred) pred

/-- `GHBHistory::fallbackPattern`. -/
def fallbackPattern (cfg : GHBConfig) (c : List Int) : List Int :=
  if c.isEmpty then []
  else
    let lookback := min c.length cfg.patternLength
    let m := fbBuild c lookback
    let fl := m.map (fun p => (p.1, p.2.1))
    let sorted := List.insertionSort (fbLe m) fl
    match sorted.head? with
    | none => fbTail cfg c sorted
    | some top =>
      if 1 ≤ top.2 then
        let cand := top.1
        let cc := consecCount c cand
        if 1 ≤ cc ∧ cand.natAbs < 300 then
          (List.range (fbPrefetchCount cfg.degree cc)).map
            (fun (i : Nat) => cand * ((i : Int) + 1))
        else fbTail cfg c sorted
      else fbTail cfg c sorted

/-! ## The dispatcher (GHBPrefetcher::calculatePrefetch) -/

/-- Modelled from the spec: `blockAddress` of the enclosing framework
rounds the byte address down to the cache-block boundary. -/
def blockAddress (cfg : GHBConfig) (a : Nat) : Nat := a - a % cfg.blkSize

/-- Modelled from the spec: `samePage` of the enclosing framework tests
whether two addresses fall on the same `pageBytes` page. -/
def samePage (cfg : GHBConfig) (a b : Nat) : Bool :=
  a / cfg.pageBytes = b / cfg.pageBytes

/-- Modelled from the spec: the helper's `empty()` reports an empty history,
which can only happen when the history size was zero. -/
def emptyHist (cfg : GHBConfig) : Bool := cfg.historySize = 0

/-- The early stride detector of `calculatePrefetch`: when the last two
deltas agree (non-zero, magnitude below 100) emit `stride * i` for
`i = 1..degree`; when only the last and third-from-last agree, emit at most
two multiples. -/
def earlyStride (cfg : GHBConfig) (c : List Int) : Option (List Int) :=
  if 3 ≤ c.length then
    if c.getD (c.length - 1) 0 = c.getD (c.length - 2) 0 ∧
        c.getD (c.length - 1) 0 ≠ 0 ∧
        (c.getD (c.length - 1) 0).natAbs < 100 then
      some ((List.range cfg.degree).map
        (fun i => c.getD (c.length - 1) 0 * ((i : Int) + 1)))
    else
      if c.getD (c.length - 1) 0 = c.getD (c.length - 3) 0 ∧
          c.getD (c.length - 1) 0 ≠ 0 ∧
          (c.getD (c.length - 1) 0).natAbs < 100 then
        some ((List.range (min cfg.degree 2)).map
          (fun i => c.getD (c.length - 1) 0 * ((i : Int) + 1)))
      else none
  else none

/-- The materialization sort of `calculatePrefetch`: `std::sort` with the
comparator `|a| < |b|`, modelled by a stable sort consistent with it. -/
def absLe (a b : Int) : Prop := a.natAbs ≤ b.natAbs

instance : DecidableRel absLe := fun a b => Nat.decLe a.natAbs b.natAbs

instance : IsTotal Int absLe := ⟨fun a b => Nat.le_total a.natAbs b.natAbs⟩

instance : IsTrans Int absLe := ⟨fun _ _ _ => Nat.le_trans⟩

def sortPredicted (pred : List Int) : List Int := List.insertionSort absLe pred

/-- The sequential-pattern detection of `calculatePrefetch`: first delta
non-zero with magnitude below 100, and the next up-to-two predictions its
exact multiples. -/
def isSequential (pred : List Int) : Bool :=
  if 2 ≤ pred.length then
    if pred.getD 0 0 ≠ 0 ∧ (pred.getD 0 0).natAbs < 100 then
      (List.range' 1 (min pred.length 3 - 1)).all
        (fun i => pred.getD i 0 = pred.getD 0 0 * ((i : Int) + 1))
    else false
  else false

/-- The materialization loop of `calculatePrefetch`, keeping each emitted
address together with the delta that produced it: zero deltas are skipped;
in sequential mode positions after the first accumulate on a running base;
a cross-page address is dropped when its delta exceeds half a page. -/
def matGo (cfg : GHBConfig) (block : Nat) (seq : Bool) :
    List Int → Nat → Nat → List (Int × Nat)
  | [], _, _ => []
  | d :: rest, i, base =>
    if d = 0 then matGo cfg block seq rest (i + 1) base
    else
      if seq ∧ 0 < i then
        if samePage cfg block (wrapU64 (toInt64 base + d)) = false ∧
            cfg.pageBytes / 2 < d.natAbs then
          matGo cfg block seq rest (i + 1) (wrapU64 (toInt64 base + d))
        else
          (d, wrapU64 (toInt64 base + d)) ::
            matGo cfg block seq rest (i + 1) (wrapU64 (toInt64 base + d))
      else
        if samePage cfg block (wrapU64 (toInt64 block + d)) = false ∧
            cfg.pageBytes / 2 < d.natAbs then
          matGo cfg block seq rest (i + 1) base
        else
          (d, wrapU64 (toInt64 block + d)) ::
            matGo cfg block seq rest (i + 1) base

/-- Materialization of a prediction list from a block address. -/
def materializeWD (cfg : GHBConfig) (block : Nat) (seq : Bool)
    (pred : List Int) : List (Int × Nat) :=
  matGo cfg block seq pred 0 block

/-- The pattern selection of `calculatePrefetch`: PC deltas when the PC
chain produced any, else Page deltas, else nothing. -/
def choosePattern (pcD pgD : List Int) (hasPC hasPg : Bool) :
    Option (List Int) :=
  if hasPC then some pcD else if hasPg then some pgD else none

/-- The prediction stage of `calculatePrefetch`: early stride detection,
otherwise pattern matching, the page-pattern retry (which also trains the
table on the page chronology), and the fallback.  Returns the possibly
retrained table together with the predictions. -/
def predictStage (cfg : GHBConfig) (t : Table) (chron : List Int)
    (pcD pgD : List Int) (hasPC hasPg : Bool) : Table × List Int :=
  match earlyStride cfg chron with
  | some l => (t, l)
  | none =>
    let fm := findPatternMatch cfg t chron
    let tp :=
      if fm.1 = false ∧ hasPg = true ∧ pgD ≠ [] ∧
          (hasPC = false ∨ pgD ≠ pcD) then
        let pchron := pgD.reverse
        let t2 := updatePT t pchron
        (t2, (findPatternMatch cfg t2 pchron).2)
      else (t, fm.2)
    if tp.2 = [] then (tp.1, fallbackPattern cfg chron) else tp

/-- The stateful core of `calculatePrefetch`: insert the access, build both
chains, train the table, and predict.  Returns the post-call state, the
chronological deltas, and the raw predictions (empty on every early
return). -/
def calcCore (cfg : GHBConfig) (s : GHBState) (addr : Nat)
    (pc : Option Nat) : GHBState × List Int × List Int :=
  if emptyHist cfg then (s, [], [])
  else
    let block := blockAddress cfg addr
    let access : AccessInfo := { addr := block, pc := if cfg.usePC then pc else none }
    let si := insert cfg s access
    if si.2 < 0 then (si.1, [], [])
    else
      let bp := buildPattern cfg si.1 si.2 .PC
      let bg := buildPattern cfg si.1 si.2 .Page
      match choosePattern bp.1 bg.1 bp.2 bg.2 with
      | none => (si.1, [], [])
      | some deltas =>
        let chron := deltas.reverse
        let t2 := updatePT si.1.patternTable chron
        let tp := predictStage cfg t2 chron bp.1 bg.1 bp.2 bg.2
        ({ si.1 with patternTable := tp.1 }, chron, tp.2)

/-- A full trace of one `calculatePrefetch` call, exposing the pipeline's
intermediate values for the theorems. -/
structure CalcTrace where
  state : GHBState
  chron : List Int
  predictedRaw : List Int
  sortedPredicted : List Int
  sequential : Bool
  withDeltas : List (Int × Nat)
  addresses : List (Nat × Nat)

def calcTrace (cfg : GHBConfig) (s : GHBState) (addr : Nat)
    (pc : Option Nat) : CalcTrace :=
  let core := calcCore cfg s addr pc
  let block := blockAddress cfg addr
  let sortedP := sortPredicted core.2.2
  let seq := isSequential sortedP
  let wd := materializeWD cfg block seq sortedP
  { state := core.1
    chron := core.2.1
    predictedRaw := core.2.2
    sortedPredicted := sortedP
    sequential := seq
    withDeltas := wd
    addresses := wd.map (fun p => (p.2, 0)) }

/-- `GHBPrefetcher::calculatePrefetch`: the post-call helper state and the
appended `(address, priority)` pairs (priority always 0). -/
def calculatePrefetch (cfg : GHBConfig) (s : GHBState) (addr : Nat)
    (pc : Option Nat) : GHBState × List (Nat × Nat) :=
  let tr := calcTrace cfg s addr pc
  (tr.state, tr.addresses)

/-- The helper state after a sequence of `calculatePrefetch` calls. -/
def runState (cfg : GHBConfig) (s : GHBState)
    (accs : List (Nat × Option Nat)) : GHBState :=
  accs.foldl (fun s a => (calculatePrefetch cfg s a.1 a.2).1) s

/-! ## Reachability of helper states

`buildPattern`, `findPatternMatch` and `fallbackPattern` are `const` and
do not change the helper state, so the mutating operations are
construction, `insert`, `updatePatternTable` and `reset`. -/

inductive Reachable (cfg : GHBConfig) : GHBState → Prop where
  | init : Reachable cfg (mkGHB cfg)
  | insert (s : GHBState) (a : AccessInfo) :
      Reachable cfg s → Reachable cfg (GHB.insert cfg s a).1
  | update (s : GHBState) (w : List Int) :
      Reachable cfg s →
      Reachable cfg { s with patternTable := updatePT s.patternTable w }
  | reset (s : GHBState) :
      Reachable cfg s → Reachable cfg (resetState s)

/-! ## Derived observations and claim-side definitions -/

/-- Sum of the stored count values of a counts map. -/
def sumCounts (cs : List (Int × Nat)) : Nat := (cs.map (fun p => p.2)).sum

/-- Per-entry well-formedness of the pattern table: the `uint32` total
matches the `uint32` sum of the counts, the counts map is non-empty, and
every stored counter is a `uint32` value. -/
def entryWF (e : PatternEntry) : Prop :=
  e.total < u32 ∧ e.total = sumCounts e.counts % u32 ∧ e.counts ≠ [] ∧
    ∀ p ∈ e.counts, p.2 < u32

def tableWF (t : Table) : Prop := ∀ p ∈ t, entryWF p.2

/-- The stored count of one (pair, delta) slot. -/
def countIn (t : Table) (k : Int × Int) (d : Int) : Nat :=
  match alookup t k with
  | none => 0
  | some e => (alookup e.counts d).getD 0

/-- The stored total of one pair entry. -/
def totalIn (t : Table) (k : Int × Int) : Nat :=
  match alookup t k with
  | none => 0
  | some e => e.total

/-- How many times one `updatePatternTable(w)` call increments the
(pair, delta) slot. -/
def incCountOf (w : List Int) (k : Int × Int) (d : Int) : Nat :=
  ((incList w).filter (fun x => x.1 = k ∧ x.2 = d)).length

/-- How many times one `updatePatternTable(w)` call increments the total
of the pair entry. -/
def incTotalOf (w : List Int) (k : Int × Int) : Nat :=
  ((incList w).filter (fun x => x.1 = k)).length

/-- The chain property of `buildPattern`: each produced delta comes from a
step whose link pointed at a valid slot with a matching sequence number
(so the walk never used data from a reused slot), and equals the signed
difference of the two slots' addresses. -/
def chainOk (hist : List GHBEntry) (k : CorrelationKey) (fuel start : Nat)
    (ds : List Int) : Prop :=
  ∀ j, j < ds.length →
    (¬(getLink
        (hist.getD ((start :: chainSlots hist k fuel start).getD j 0) {})
        k).prev < 0) ∧
    (getLink (hist.getD ((start :: chainSlots hist k fuel start).getD j 0) {})
        k).prev.toNat =
      (start :: chainSlots hist k fuel start).getD (j + 1) 0 ∧
    (hist.getD ((start :: chainSlots hist k fuel start).getD (j + 1) 0)
        {}).seq =
      (getLink (hist.getD ((start :: chainSlots hist k fuel start).getD j 0)
          {}) k).prevSeq ∧
    ds.getD j 0 =
      int64Sub
        (hist.getD ((start :: chainSlots hist k fuel start).getD j 0) {}).addr
        (hist.getD ((start :: chainSlots hist k fuel start).getD (j + 1) 0)
          {}).addr

/-- The invariant carried through the stages of `findPatternMatch`: no
duplicate deltas, at most the effective degree, and everything beyond the
initial emission is non-zero. -/
def StageInv (eff : Nat) (inp out : List Int) : Prop :=
  out.Nodup ∧ out.length ≤ eff ∧ ∀ d, d ∈ out → d ∈ inp ∨ d ≠ 0

/-- The amended sequential address formula, with an exact running integer
sum: position 0 materializes `block + d₀`; every later position
accumulates its delta first, so position `i` materializes
`block + (d₁ + ⋯ + d_i)`, each address reduced modulo 2^64 once. -/
def matSeqGo (cfg : GHBConfig) (block : Nat) :
    List Int → Nat → Int → List (Int × Nat)
  | [], _, _ => []
  | d :: rest, i, sum =>
    if d = 0 then matSeqGo cfg block rest (i + 1) sum
    else
      if i = 0 then
        if samePage cfg block (wrapU64 ((block : Int) + d)) = false ∧
            cfg.pageBytes / 2 < d.natAbs then
          matSeqGo cfg block rest (i + 1) sum
        else
          (d, wrapU64 ((block : Int) + d)) :: matSeqGo cfg block rest (i + 1) sum
      else
        if samePage cfg block (wrapU64 ((block : Int) + (sum + d))) = false ∧
            cfg.pageBytes / 2 < d.natAbs then
          matSeqGo cfg block rest (i + 1) (sum + d)
        else
          (d, wrapU64 ((block : Int) + (sum + d))) ::
            matSeqGo cfg block rest (i + 1) (sum + d)

def matSeqSpec (cfg : GHBConfig) (block : Nat) (pred : List Int) :
    List (Int × Nat) := matSeqGo cfg block pred 0 0

/-! ## Concrete configurations and runs used by witnesses and
counterexamples -/

/-- degree 4, the configuration of the stride-128 run. -/
def cfgA : GHBConfig :=
  { historySize := 8, patternLength := 4, degree := 4, usePC := true,
    pageBytes := 4096, confidenceThreshold := 50, blkSize := 64 }

/-- degree 3, the configuration of the stride-64 run. -/
def cfgB : GHBConfig := { cfgA with degree := 3 }

/-- degree 1, the configuration of the zero-delta pattern-table case. -/
def cfgD : GHBConfig := { cfgA with degree := 1 }

/-- degree 2^31: the `unsigned` products of the fallback prefetch-count
ladder wrap to zero at this degree. -/
def cfgE : GHBConfig := { cfgA with degree := 2147483648 }

/-- State after four accesses with stride 128 (PC 7). -/
def sA4 : GHBState := runState cfgA (mkGHB cfgA)
  [(3456, some 7), (3584, some 7), (3712, some 7), (3840, some 7)]

/-- The fifth call of the stride-128 run: chronological deltas
[128, 128, 128, 128], block address 3968 near the end of page 0. -/
def trA : CalcTrace := calcTrace cfgA sA4 3968 (some 7)

/-- State after four accesses with stride 64 (PC 7). -/
def sB4 : GHBState := runState cfgB (mkGHB cfgB)
  [(0, some 7), (64, some 7), (128, some 7), (192, some 7)]

/-- The fifth call of the stride-64 run: the early detector fires and the
sorted predictions [64, 128, 192] are marked sequential. -/
def trB : CalcTrace := calcTrace cfgB sB4 256 (some 7)

/-- State after two accesses producing chronological deltas [-64, 192]. -/
def sC2 : GHBState := runState cfgA (mkGHB cfgA)
  [(4096, some 7), (4032, some 7)]

/-- The third call of the mixed-sign run: the fallback predicts
[-64, 192], which the materialization sort leaves in that order. -/
def trC : CalcTrace := calcTrace cfgA sC2 4224 (some 7)

/-- A pattern table whose only entry maps the pair (1, 2) to the delta 0
with certainty (two observations). -/
def tD : Table := [((1, 2), { counts := [(0, 2)], total := 2 })]

/-- A two-slot configuration for the chain-walk witness. -/
def cfgW7 : GHBConfig := { cfgA with historySize := 2 }

/-- A tiny history: slot 1 links back to slot 0 through the PC key with a
matching sequence number. -/
def stW7 : GHBState :=
  { history :=
      [{ addr := 10, seq := 1 },
       { addr := 25, seq := 2,
         linkPC := { prev := 0, prevSeq := 1, keyValid := true,
                     keyValue := 7 } }]
    lastPC := [(7, 1)]
    lastPage := []
    head := 0
    filled := true
    seqCounter := 3
    patternTable := [] }

/-- One `updatePatternTable([1, 2, 3])` call as a state step. -/
def c6Step (s : GHBState) : GHBState :=
  { s with patternTable := updatePT s.patternTable [1, 2, 3] }

/-- The helper state after `k` such calls. -/
def c6State (k : Nat) : GHBState := c6Step^[k] (mkGHB cfgA)

/-! ## Arithmetic helper lemmas -/

theorem u64_int_pos : (0 : Int) < (u64 : Int) := by norm_num [u64]

theorem toInt64_emod (n : Nat) :
    toInt64 n % (u64 : Int) = (n : Int) % (u64 : Int) := by
  unfold toInt64
  split
  · push_cast
    exact Int.emod_emod_of_dvd _ dvd_rfl
  · push_cast
    rw [Int.sub_emod, Int.emod_emod_of_dvd _ dvd_rfl, Int.emod_self, sub_zero,
      Int.emod_emod_of_dvd _ dvd_rfl]

theorem wrapU64_cast (z : Int) :
    ((wrapU64 z : Nat) : Int) = z % (u64 : Int) := by
  unfold wrapU64
  exact Int.toNat_of_nonneg (Int.emod_nonneg z (by norm_num [u64]))

theorem wrapU64_congr {a b : Int} (h : a % (u64 : Int) = b % (u64 : Int)) :
    wrapU64 a = wrapU64 b := by
  unfold wrapU64
  rw [h]

theorem toInt64_wrapU64_emod (z : Int) :
    toInt64 (wrapU64 z) % (u64 : Int) = z % (u64 : Int) := by
  rw [toInt64_emod, wrapU64_cast, Int.emod_emod_of_dvd _ dvd_rfl]

theorem wrapU64_addl (z d : Int) :
    wrapU64 (toInt64 (wrapU64 z) + d) = wrapU64 (z + d) :=
  wrapU64_congr (by rw [Int.add_emod, toInt64_wrapU64_emod, ← Int.add_emod])

theorem wrapU64_add_nat (n : Nat) (d : Int) :
    wrapU64 (toInt64 n + d) = wrapU64 ((n : Int) + d) :=
  wrapU64_congr (by rw [Int.add_emod, toInt64_emod, ← Int.add_emod])

theorem wrapU64_of_lt {n : Nat} (h : n < u64) : wrapU64 ((n : Int)) = n := by
  unfold wrapU64
  rw [Int.emod_eq_of_lt (by positivity) (by exact_mod_cast h)]
  simp

/-! ## Materialization lemmas (claims C1, C4, C5) -/

/-- Any pair kept by the materialization loop has a non-zero delta, and a
kept cross-page pair has a delta of at most half a page. -/
theorem matGo_crosspage (cfg : GHBConfig) (block : Nat) (seq : Bool) :
    ∀ (l : List Int) (i base : Nat) (d : Int) (a : Nat),
      (d, a) ∈ matGo cfg block seq l i base →
      samePage cfg block a = false →
      d ≠ 0 ∧ d.natAbs ≤ cfg.pageBytes / 2
  | [], i, base => by
    intro d a h _
    simp [matGo] at h
  | dd :: rest, i, base => by
    intro d a h hsp
    unfold matGo at h
    by_cases hz : dd = 0
    · rw [if_pos hz] at h
      exact matGo_crosspage cfg block seq rest (i + 1) base d a h hsp
    · rw [if_neg hz] at h
      split at h <;> split at h <;>
        first
        | exact matGo_crosspage cfg block seq rest (i + 1) _ d a h hsp
        | · rcases List.mem_cons.mp h with h1 | h1
            · simp only [Prod.mk.injEq] at h1
              obtain ⟨rfl, rfl⟩ := h1
              refine ⟨hz, ?_⟩
              by_contra hgt
              rename_i hdrop
              exact hdrop ⟨hsp, Nat.lt_of_not_le hgt⟩
            · exact matGo_crosspage cfg block seq rest (i + 1) _ d a h1 hsp

/-- The deltas of the materialized pairs form a sublist of the input. -/
theorem matGo_fst_sublist (cfg : GHBConfig) (block : Nat) (seq : Bool) :
    ∀ (l : List Int) (i base : Nat),
      ((matGo cfg block seq l i base).map (fun p => p.1)).Sublist l
  | [], _, _ => by simp [matGo]
  | dd :: rest, i, base => by
    unfold matGo
    by_cases hz : dd = 0
    · rw [if_pos hz]
      exact (matGo_fst_sublist cfg block seq rest (i + 1) base).cons dd
    · rw [if_neg hz]
      split <;> split <;>
        first
        | exact (matGo_fst_sublist cfg block seq rest (i + 1) _).cons dd
        | simpa using (matGo_fst_sublist cfg block seq rest (i + 1) _).cons₂ dd

/-- In sequential mode the materialization loop computes exactly the
running-sum addresses of `matSeqGo`: the wrapped base accumulator equals
the single wrap of the exact integer sum. -/
theorem matGo_eq_seq (cfg : GHBConfig) (block : Nat) (hb : block < u64) :
    ∀ (l : List Int) (i : Nat) (base : Nat) (sum : Int),
      (i = 0 → sum = 0) →
      base = (if i = 0 then block else wrapU64 ((block : Int) + sum)) →
      matGo cfg block true l i base = matSeqGo cfg block l i sum
  | [], _, _, _ => by
    intro _ _
    rfl
  | d :: rest, i, base, sum => by
    intro hs hb2
    unfold matGo matSeqGo
    by_cases hz : d = 0
    · rw [if_pos hz, if_pos hz]
      refine matGo_eq_seq cfg block hb rest (i + 1) base sum (by omega) ?_
      rw [if_neg (Nat.succ_ne_zero i)]
      rcases Nat.eq_zero_or_pos i with hi | hi
      · rw [hb2, if_pos hi, hs hi, add_zero]
        exact (wrapU64_of_lt hb).symm
      · rw [hb2, if_neg (Nat.pos_iff_ne_zero.mp hi)]
    · rw [if_neg hz, if_neg hz]
      by_cases hi : i = 0
      · subst hi
        have hcond : ¬((true : Bool) = true ∧ 0 < 0) := by simp
        rw [if_neg hcond, if_pos rfl]
        rw [wrapU64_add_nat block d]
        have hrec : matGo cfg block true rest 1 base =
            matSeqGo cfg block rest 1 sum := by
          refine matGo_eq_seq cfg block hb rest 1 base sum (by omega) ?_
          rw [if_neg (Nat.succ_ne_zero 0), hb2, if_pos rfl, hs rfl, add_zero]
          exact (wrapU64_of_lt hb).symm
        rw [hrec]
      · have hcond : ((true : Bool) = true ∧ 0 < i) :=
          ⟨rfl, Nat.pos_of_ne_zero hi⟩
        rw [if_pos hcond, if_neg hi]
        have hb3 : base = wrapU64 ((block : Int) + sum) := by
          rw [hb2, if_neg hi]
        have hnext : wrapU64 (toInt64 base + d) =
            wrapU64 ((block : Int) + (sum + d)) := by
          rw [hb3, wrapU64_addl, add_assoc]
        rw [hnext]
        have hrec : matGo cfg block true rest (i + 1)
              (wrapU64 ((block : Int) + (sum + d))) =
            matSeqGo cfg block rest (i + 1) (sum + d) := by
          refine matGo_eq_seq cfg block hb rest (i + 1) _ (sum + d)
            (by omega) ?_
          rw [if_neg (Nat.succ_ne_zero i)]
        rw [hrec]

/-- The sequential flag characterised: the predictions are marked
sequential exactly when there are at least two, the first is non-zero with
magnitude below 100, and the next up-to-two predictions are its exact
multiples. -/
theorem isSequential_iff (pred : List Int) :
    isSequential pred = true ↔
      (2 ≤ pred.length ∧ pred.getD 0 0 ≠ 0 ∧ (pred.getD 0 0).natAbs < 100 ∧
        ∀ i, 1 ≤ i → i < min pred.length 3 →
          pred.getD i 0 = pred.getD 0 0 * ((i : Int) + 1)) := by
  unfold isSequential
  by_cases h2 : 2 ≤ pred.length
  · rw [if_pos h2]
    by_cases hb : pred.getD 0 0 ≠ 0 ∧ (pred.getD 0 0).natAbs < 100
    · rw [if_pos hb, List.all_eq_true]
      constructor
      · intro h
        refine ⟨h2, hb.1, hb.2, fun i h1 h3 => ?_⟩
        have hi : i ∈ List.range' 1 (min pred.length 3 - 1) := by
          rw [List.mem_range'_1]
          omega
        simpa using h i hi
      · rintro ⟨-, -, -, h⟩ i hi
        rw [List.mem_range'_1] at hi
        simpa using h i hi.1 (by omega)
    · rw [if_neg hb]
      simp only [Bool.false_eq_true, false_iff]
      rintro ⟨-, hnz, hlt, -⟩
      exact hb ⟨hnz, hlt⟩
  · rw [if_neg h2]
    simp only [Bool.false_eq_true, false_iff]
    rintro ⟨hh, -⟩
    exact h2 hh

/-! ## Claim theorems C1, C2, C4, C5 -/

/-- C1 (amended): in `calculatePrefetch`, a materialized pair whose address
falls on a different page than the block address is appended exactly when
its delta is non-zero and `|delta| ≤ pageBytes / 2`; the sequential,
`|delta| < 32` and small-negative rules of the claim do not exist in the
code.  Every appended output pair is an emitted `(address, 0)` pair of the
materialization. -/
theorem crosspage_admission (cfg : GHBConfig) (s : GHBState) (addr : Nat)
    (pc : Option Nat) (d : Int) (a : Nat)
    (hmem : (d, a) ∈ (calcTrace cfg s addr pc).withDeltas)
    (hcross : samePage cfg (blockAddress cfg addr) a = false) :
    (d ≠ 0 ∧ d.natAbs ≤ cfg.pageBytes / 2) ∧
    (calcTrace cfg s addr pc).addresses =
      (calcTrace cfg s addr pc).withDeltas.map (fun p => (p.2, 0)) :=
  ⟨matGo_crosspage cfg (blockAddress cfg addr) _ _ 0 _ d a hmem hcross, rfl⟩

/-- C1 witness: the cross-page pair (delta 128, address 4096) emitted by
the fifth call of the stride-128 run satisfies the admission bound. -/
theorem crosspage_admission_witness :
    (((128 : Int), 4096) ∈ trA.withDeltas ∧
      samePage cfgA (blockAddress cfgA 3968) 4096 = false) ∧
    ((128 : Int) ≠ 0 ∧ (128 : Int).natAbs ≤ cfgA.pageBytes / 2) :=
  ⟨⟨by decide, by decide⟩,
    (crosspage_admission cfgA sA4 3968 (some 7) 128 4096 (by decide)
      (by decide)).1⟩

/-- C1 counterexample: the stride-128 run appends the cross-page pair
(4096, 0) produced by delta 128, although the list is not marked
sequential, `|128| < 32` fails and `-128 < 128 < 0` fails — the claim's
page-boundary policy forbids this admission. -/
theorem crosspage_admission_counterexample :
    ((128 : Int), 4096) ∈ trA.withDeltas ∧
    (4096, 0) ∈ trA.addresses ∧
    samePage cfgA (blockAddress cfgA 3968) 4096 = false ∧
    trA.sequential = false ∧
    ¬(128 : Int).natAbs < 32 ∧
    ¬((-128 : Int) < 128 ∧ (128 : Int) < 0) :=
  ⟨by decide, by decide, by decide, by decide, by decide, by decide⟩

/-- C2 (amended): the early simple-stride detector fires only when at
least three chronological deltas exist, the last two agree, are non-zero
and have magnitude below 100 (not 200); it then emits `stride * i` for
`i = 1..degree` — there is no trailing-run count and no
stride-count-dependent prefetch-count ladder — and `findPatternMatch` is
skipped (the result is independent of the pattern table, which is returned
untouched). -/
theorem earlyStride_behavior (cfg : GHBConfig) (t : Table)
    (chron pcD pgD : List Int) (hasPC hasPg : Bool)
    (h3 : 3 ≤ chron.length)
    (heq : chron.getD (chron.length - 1) 0 = chron.getD (chron.length - 2) 0)
    (hnz : chron.getD (chron.length - 1) 0 ≠ 0)
    (hlt : (chron.getD (chron.length - 1) 0).natAbs < 100) :
    predictStage cfg t chron pcD pgD hasPC hasPg =
      (t, (List.range cfg.degree).map
        (fun i => chron.getD (chron.length - 1) 0 * ((i : Int) + 1))) := by
  have he : earlyStride cfg chron =
      some ((List.range cfg.degree).map
        (fun i => chron.getD (chron.length - 1) 0 * ((i : Int) + 1))) := by
    unfold earlyStride
    rw [if_pos h3, if_pos ⟨heq, hnz, hlt⟩]
  unfold predictStage
  rw [he]

/-- C2 witness: deltas [64, 64, 64] fire the detector with degree 3. -/
theorem earlyStride_behavior_witness :
    (3 ≤ ([64, 64, 64] : List Int).length ∧
      ([64, 64, 64] : List Int).getD 2 0 = ([64, 64, 64] : List Int).getD 1 0 ∧
      ([64, 64, 64] : List Int).getD 2 0 ≠ 0 ∧
      (([64, 64, 64] : List Int).getD 2 0).natAbs < 100) ∧
    predictStage cfgB [] [64, 64, 64] [] [] false false =
      ([], [64, 128, 192]) :=
  ⟨⟨by decide, by decide, by decide, by decide⟩,
    (earlyStride_behavior cfgB [] [64, 64, 64] [] [] false false (by decide)
      (by decide) (by decide) (by decide)).trans (by decide)⟩

/-- C2 counterexample: the fifth call of the stride-128 run satisfies the
claim's guard (last two deltas equal, non-zero, `|128| < 200`), yet the
detector does not fire (the code requires `|delta| < 100`) and the call
produces eight predictions via `findPatternMatch` instead of the claim's
`min(degree + 2, stride_count) = 4` stride multiples. -/
theorem earlyStride_claim_counterexample :
    trA.chron = [128, 128, 128, 128] ∧
    trA.chron.getD 3 0 = trA.chron.getD 2 0 ∧
    trA.chron.getD 3 0 ≠ 0 ∧
    (trA.chron.getD 3 0).natAbs < 200 ∧
    earlyStride cfgA trA.chron = none ∧
    trA.predictedRaw = [128, 256, 384, 512, 640, 768, 896, 1024] ∧
    trA.predictedRaw.length ≠ 4 :=
  ⟨by decide, by decide, by decide, by decide, by decide, by decide,
    by decide⟩

/-- C4 (amended): the materialization sort orders by `|delta|` ascending
only (there is no positive-before-non-positive grouping), and the appended
pairs respect that order: the deltas generating the output are
non-decreasing in magnitude. -/
theorem materialization_order (cfg : GHBConfig) (s : GHBState) (addr : Nat)
    (pc : Option Nat) :
    ((calcTrace cfg s addr pc).withDeltas).Pairwise
        (fun x y => x.1.natAbs ≤ y.1.natAbs) ∧
    (calcTrace cfg s addr pc).addresses =
      (calcTrace cfg s addr pc).withDeltas.map (fun p => (p.2, 0)) := by
  refine ⟨?_, rfl⟩
  have hsorted : List.Pairwise absLe
      (sortPredicted (calcTrace cfg s addr pc).predictedRaw) :=
    List.sorted_insertionSort absLe _
  have hsub : (((calcTrace cfg s addr pc).withDeltas).map
        (fun p => p.1)).Sublist
      (sortPredicted (calcTrace cfg s addr pc).predictedRaw) :=
    matGo_fst_sublist cfg _ _ _ 0 _
  have hp : List.Pairwise (fun a b : Int × Nat => absLe a.1 b.1)
      ((calcTrace cfg s addr pc).withDeltas) :=
    List.pairwise_map.mp (List.Pairwise.sublist hsub hsorted)
  exact hp

/-- C4 counterexample: the mixed-sign run materializes the pair of the
negative delta -64 before the pair of the positive delta 192, violating
the claim's positive-before-non-positive ordering. -/
theorem materialization_order_counterexample :
    trC.withDeltas = [(-64, 4160), (192, 4416)] ∧
    trC.addresses = [(4160, 0), (4416, 0)] ∧
    ¬trC.withDeltas.Pairwise (fun x y => 0 < y.1 → 0 < x.1) :=
  ⟨by decide, by decide, by decide⟩

/-- C5 (amended): the output is marked sequential exactly when at least
two predictions exist, the first is non-zero with `|predicted[0]| < 100`
(not 200), and the next up-to-two predictions are its exact multiples.
When sequential, the addresses accumulate: position 0 materializes
`block_addr + predicted[0]` and position `i ≥ 1` materializes
`block_addr + (predicted[1] + ⋯ + predicted[i])` (wrapping mod 2^64), not
`block_addr + base_stride * (i + 1)`. -/
theorem sequential_addressing (cfg : GHBConfig) (s : GHBState) (addr : Nat)
    (pc : Option Nat) (haddr : addr < u64) :
    ((calcTrace cfg s addr pc).sequential = true ↔
      (2 ≤ (calcTrace cfg s addr pc).sortedPredicted.length ∧
        (calcTrace cfg s addr pc).sortedPredicted.getD 0 0 ≠ 0 ∧
        ((calcTrace cfg s addr pc).sortedPredicted.getD 0 0).natAbs < 100 ∧
        ∀ i, 1 ≤ i →
          i < min (calcTrace cfg s addr pc).sortedPredicted.length 3 →
          (calcTrace cfg s addr pc).sortedPredicted.getD i 0 =
            (calcTrace cfg s addr pc).sortedPredicted.getD 0 0 *
              ((i : Int) + 1))) ∧
    ((calcTrace cfg s addr pc).sequential = true →
      (calcTrace cfg s addr pc).withDeltas =
        matSeqSpec cfg (blockAddress cfg addr)
          (calcTrace cfg s addr pc).sortedPredicted) := by
  constructor
  · exact isSequential_iff _
  · intro hseq
    have hb : blockAddress cfg addr < u64 :=
      lt_of_le_of_lt (Nat.sub_le _ _) haddr
    have hw : (calcTrace cfg s addr pc).withDeltas =
        matGo cfg (blockAddress cfg addr)
          ((calcTrace cfg s addr pc).sequential)
          ((calcTrace cfg s addr pc).sortedPredicted) 0
          (blockAddress cfg addr) := rfl
    rw [hw, hseq]
    exact matGo_eq_seq cfg (blockAddress cfg addr) hb
      ((calcTrace cfg s addr pc).sortedPredicted) 0 (blockAddress cfg addr) 0
      (fun _ => rfl) (by simp)

/-- C5 witness: the fifth call of the stride-64 run is marked sequential
and its materialization matches the running-sum formula. -/
theorem sequential_addressing_witness :
    (256 < u64) ∧
    (trB.sequential = true →
      trB.withDeltas = matSeqSpec cfgB (blockAddress cfgB 256)
        trB.sortedPredicted) :=
  ⟨by decide, (sequential_addressing cfgB sB4 256 (some 7) (by decide)).2⟩

/-- C5 counterexample: in the stride-64 run the sorted predictions are
[64, 128, 192] and the list is marked sequential with base stride 64, but
the third materialized address is 576 = 384 + 192 (cumulative), not
`block_addr + 64 * 3 = 448` as the claim requires. -/
theorem sequential_addressing_counterexample :
    trB.sequential = true ∧
    trB.sortedPredicted = [64, 128, 192] ∧
    trB.addresses = [(320, 0), (384, 0), (576, 0)] ∧
    (trB.addresses.getD 2 (0, 0)).1 ≠ wrapU64 ((256 : Int) + 64 * (2 + 1)) :=
  ⟨by decide, by decide, by decide, by decide⟩

/-! ## Chain-walk lemmas (claim C7) -/

theorem buildPatternGo_length (hist : List GHBEntry) (k : CorrelationKey) :
    ∀ (fuel cur : Nat), (buildPatternGo hist k fuel cur).length ≤ fuel
  | 0, _ => by simp [buildPatternGo]
  | fuel + 1, cur => by
    unfold buildPatternGo
    split
    · simp
    · split
      · simp
      · simpa using buildPatternGo_length hist k fuel _

theorem buildPatternGo_chain (hist : List GHBEntry) (k : CorrelationKey) :
    ∀ (fuel cur : Nat), chainOk hist k fuel cur (buildPatternGo hist k fuel cur)
  | 0, _ => by
    intro j hj
    simp [buildPatternGo] at hj
  | fuel + 1, cur => by
    intro j hj
    unfold buildPatternGo at hj ⊢
    unfold chainSlots
    by_cases hprev : (getLink (hist.getD cur {}) k).prev < 0
    · rw [if_pos hprev] at hj
      simp at hj
    · rw [if_neg hprev] at hj
      by_cases hseq :
          (hist.getD (getLink (hist.getD cur {}) k).prev.toNat {}).seq ≠
            (getLink (hist.getD cur {}) k).prevSeq
      · rw [if_pos hseq] at hj
        simp at hj
      · rw [if_neg hseq] at hj
        simp only [if_neg hprev, if_neg hseq]
        push_neg at hseq
        match j with
        | 0 => exact ⟨hprev, rfl, hseq, rfl⟩
        | jj + 1 =>
          have hj2 : jj < (buildPatternGo hist k fuel
              (getLink (hist.getD cur {}) k).prev.toNat).length := by
            rw [List.length_cons] at hj
            exact Nat.lt_of_succ_lt_succ hj
          exact buildPatternGo_chain hist k fuel
            (getLink (hist.getD cur {}) k).prev.toNat jj hj2

/-- C7: `buildPattern` returns at most `patternLength` deltas, reports
success exactly when at least one delta was produced, and every produced
delta comes from a chain step whose `prev` slot was valid with a matching
sequence number (the walk stops, and never reads, at the first reused
slot), each delta being the signed 64-bit difference of the adjacent
slots' addresses. -/
theorem buildPattern_spec (cfg : GHBConfig) (s : GHBState) (index : Int)
    (k : CorrelationKey) :
    (buildPattern cfg s index k).1.length ≤ cfg.patternLength ∧
    ((buildPattern cfg s index k).2 = true ↔
      (buildPattern cfg s index k).1 ≠ []) ∧
    chainOk s.history k cfg.patternLength index.toNat
      (buildPattern cfg s index k).1 := by
  unfold buildPattern
  split
  · refine ⟨by simp, by simp, ?_⟩
    intro j hj
    simp at hj
  · refine ⟨buildPatternGo_length s.history k cfg.patternLength index.toNat,
      ?_, buildPatternGo_chain s.history k cfg.patternLength index.toNat⟩
    cases buildPatternGo s.history k cfg.patternLength index.toNat with
    | nil => simp
    | cons x xs => simp

/-- C7 witness: the two-slot history produces the single delta 15 through
a valid chain step. -/
theorem buildPattern_spec_witness :
    (buildPattern cfgW7 stW7 1 .PC).1.length ≤ cfgW7.patternLength ∧
    ((buildPattern cfgW7 stW7 1 .PC).2 = true ↔
      (buildPattern cfgW7 stW7 1 .PC).1 ≠ []) ∧
    chainOk stW7.history .PC cfgW7.patternLength (1 : Int).toNat
      (buildPattern cfgW7 stW7 1 .PC).1 :=
  buildPattern_spec cfgW7 stW7 1 .PC

/-! ## Insertion lemmas (claim C9) -/

theorem getD_set_self {α : Type} (l : List α) (n : Nat) (x d : α)
    (h : n < l.length) : (l.set n x).getD n d = x := by
  rw [List.getD_eq_getElem _ _ (by simpa using h)]
  exact List.getElem_set_self _

theorem removeIndexMappings_head (s : GHBState) (slot : Nat) :
    (removeIndexMappings s slot).head = s.head := rfl

theorem removeIndexMappings_seqCounter (s : GHBState) (slot : Nat) :
    (removeIndexMappings s slot).seqCounter = s.seqCounter := rfl

theorem removeIndexMappings_length (s : GHBState) (slot : Nat) :
    (removeIndexMappings s slot).history.length = s.history.length := by
  simp [removeIndexMappings]

/-- After `removeIndexMappings`, the victim's key value no longer maps to
the evicted slot. -/
theorem removeMapFor_scrub (m : List (Nat × Nat)) (l : LinkInfo)
    (slot : Nat) (hv : l.keyValid = true) :
    alookup (removeMapFor m l slot) l.keyValue ≠ some slot := by
  unfold removeMapFor
  rw [if_pos hv]
  cases hm : alookup m l.keyValue with
  | none => simp [hm]
  | some s0 =>
    show alookup (if s0 = slot then aerase m l.keyValue else m) l.keyValue ≠
      some slot
    by_cases hs : s0 = slot
    · rw [if_pos hs]
      simp [alookup_aerase_self]
    · rw [if_neg hs]
      simp [hm, hs]

theorem assignCorrelation_snd (hist : List GHBEntry) (m : List (Nat × Nat))
    (slot value : Nat) :
    (assignCorrelation hist m slot value).2 = aset m value slot := rfl

/-- The write phase: returns the head slot, stamps it with the current
sequence counter, and points both live last-index maps at it. -/
theorem insertWrite_spec (cfg : GHBConfig) (s1 : GHBState) (a : AccessInfo)
    (hhead : s1.head < s1.history.length) :
    (insertWrite cfg s1 a).2 = (s1.head : Int) ∧
    ((insertWrite cfg s1 a).1.history.getD s1.head {}).seq = s1.seqCounter ∧
    (insertWrite cfg s1 a).1.seqCounter = (s1.seqCounter + 1) % u64 ∧
    alookup (insertWrite cfg s1 a).1.lastPage (a.addr / cfg.pageBytes) =
      some s1.head ∧
    (cfg.usePC = true → a.pc.isSome = true →
      alookup (insertWrite cfg s1 a).1.lastPC (a.pc.getD 0) = some s1.head) := by
  refine ⟨rfl, ?_, rfl, ?_, ?_⟩
  · show ((insertHist3 cfg s1 a).getD s1.head {}).seq = s1.seqCounter
    unfold insertHist3
    rw [getD_set_self _ _ _ _ (by
      simp only [insertHist2, insertHist1, List.length_set]
      exact hhead)]
    rfl
  · show alookup (insertLastPage cfg s1 a) (a.addr / cfg.pageBytes) =
      some s1.head
    unfold insertLastPage
    rw [assignCorrelation_snd]
    exact alookup_aset_self _ _ _
  · intro hu hp
    show alookup (insertLastPC cfg s1 a) (a.pc.getD 0) = some s1.head
    unfold insertLastPC
    rw [if_pos ⟨hu, hp⟩, assignCorrelation_snd]
    exact alookup_aset_self _ _ _

/-- C9: after `insert` returns slot `s.head`, the slot's `seq` equals the
post-call sequence counter minus one (mod 2^64), the live last-index maps
(PC only when `usePC` and the access carries a PC; Page always, keyed by
`addr / pageBytes`) point at the slot, and — when an occupant was evicted —
its last-index entries that still pointed at the slot were erased by
`removeIndexMappings` before the overwrite. -/
theorem insert_spec (cfg : GHBConfig) (s : GHBState) (a : AccessInfo)
    (hsz : 1 ≤ cfg.historySize) (hlen : s.history.length = cfg.historySize)
    (hhead : s.head < cfg.historySize) :
    (insert cfg s a).2 = (s.head : Int) ∧
    ((insert cfg s a).1.history.getD s.head {}).seq = s.seqCounter ∧
    (insert cfg s a).1.seqCounter = (s.seqCounter + 1) % u64 ∧
    alookup (insert cfg s a).1.lastPage (a.addr / cfg.pageBytes) =
      some s.head ∧
    (cfg.usePC = true → a.pc.isSome = true →
      alookup (insert cfg s a).1.lastPC (a.pc.getD 0) = some s.head) ∧
    (s.filled = true → ∀ k : CorrelationKey,
      (getLink (s.history.getD s.head {}) k).keyValid = true →
      alookup (lastOf (removeIndexMappings s s.head) k)
        (getLink (s.history.getD s.head {}) k).keyValue ≠ some s.head) := by
  have hne : ¬cfg.historySize = 0 := by omega
  have hscrub : s.filled = true → ∀ k : CorrelationKey,
      (getLink (s.history.getD s.head {}) k).keyValid = true →
      alookup (lastOf (removeIndexMappings s s.head) k)
        (getLink (s.history.getD s.head {}) k).keyValue ≠ some s.head := by
    intro _ k hv
    cases k with
    | PC => exact removeMapFor_scrub s.lastPC _ s.head hv
    | Page => exact removeMapFor_scrub s.lastPage _ s.head hv
  by_cases hf : s.filled = true
  · have hins : insert cfg s a = insertWrite cfg (removeIndexMappings s s.head) a := by
      unfold insert
      rw [if_neg hne, if_pos hf]
    have hw := insertWrite_spec cfg (removeIndexMappings s s.head) a
      (by rw [removeIndexMappings_length, removeIndexMappings_head, hlen]
          exact hhead)
    rw [removeIndexMappings_head, removeIndexMappings_seqCounter] at hw
    rw [hins]
    exact ⟨hw.1, hw.2.1, hw.2.2.1, hw.2.2.2.1, hw.2.2.2.2, hscrub⟩
  · have hins : insert cfg s a = insertWrite cfg s a := by
      unfold insert
      rw [if_neg hne, if_neg hf]
    have hw := insertWrite_spec cfg s a (by rw [hlen]; exact hhead)
    rw [hins]
    exact ⟨hw.1, hw.2.1, hw.2.2.1, hw.2.2.2.1, hw.2.2.2.2, hscrub⟩

/-- C9 witness: inserting an access with PC 9 into the two-slot filled
history updates both maps and stamps the sequence number. -/
theorem insert_spec_witness :
    (1 ≤ cfgW7.historySize ∧ stW7.history.length = cfgW7.historySize ∧
      stW7.head < cfgW7.historySize) ∧
    ((insert cfgW7 stW7 { addr := 4160, pc := some 9 }).2 =
        (stW7.head : Int) ∧
      ((insert cfgW7 stW7 { addr := 4160, pc := some 9 }).1.history.getD
          stW7.head {}).seq = stW7.seqCounter ∧
      (insert cfgW7 stW7 { addr := 4160, pc := some 9 }).1.seqCounter =
        (stW7.seqCounter + 1) % u64 ∧
      alookup (insert cfgW7 stW7 { addr := 4160, pc := some 9 }).1.lastPage
          (4160 / cfgW7.pageBytes) = some stW7.head ∧
      (cfgW7.usePC = true →
        (some 9 : Option Nat).isSome = true →
        alookup (insert cfgW7 stW7 { addr := 4160, pc := some 9 }).1.lastPC
          ((some 9 : Option Nat).getD 0) = some stW7.head) ∧
      (stW7.filled = true → ∀ k : CorrelationKey,
        (getLink (stW7.history.getD stW7.head {}) k).keyValid = true →
        alookup (lastOf (removeIndexMappings stW7 stW7.head) k)
          (getLink (stW7.history.getD stW7.head {}) k).keyValue ≠
            some stW7.head)) :=
  ⟨⟨by decide, by decide, by decide⟩,
    insert_spec cfgW7 stW7 { addr := 4160, pc := some 9 } (by decide)
      (by decide) (by decide)⟩

/-! ## Pattern-table lemmas (claims C6, C8) -/

theorem alookup_mem {α β : Type} [DecidableEq α] (m : List (α × β)) (k : α)
    (v : β) (h : alookup m k = some v) : (k, v) ∈ m := by
  induction m with
  | nil => simp [alookup] at h
  | cons p rest ih =>
    obtain ⟨a, b⟩ := p
    by_cases ha : a = k
    · subst ha
      rw [alookup, if_pos rfl] at h
      obtain rfl := Option.some.inj h
      exact List.mem_cons_self _ _
    · rw [alookup, if_neg ha] at h
      exact List.mem_cons_of_mem _ (ih h)

theorem sumCounts_aset (cs : List (Int × Nat)) (k : Int) (v : Nat) :
    sumCounts (aset cs k v) + (alookup cs k).getD 0 = sumCounts cs + v := by
  induction cs with
  | nil => simp [aset, sumCounts, alookup]
  | cons p rest ih =>
    obtain ⟨a, b⟩ := p
    by_cases h : a = k
    · subst h
      simp [aset, alookup, sumCounts] at ih ⊢
      omega
    · simp [aset, alookup, sumCounts, h] at ih ⊢
      omega

theorem aset_ne_nil {α β : Type} [DecidableEq α] (m : List (α × β)) (k : α)
    (v : β) : aset m k v ≠ [] := by
  cases m with
  | nil => simp [aset]
  | cons p rest =>
    obtain ⟨a, b⟩ := p
    by_cases h : a = k <;> simp [aset, h]

theorem u32_pos : 0 < u32 := by norm_num [u32]

/-- The stored count of the bumped slot is incremented modulo 2^32. -/
theorem countIn_bump_self (t : Table) (kd : (Int × Int) × Int) :
    countIn (bump t kd) kd.1 kd.2 = (countIn t kd.1 kd.2 + 1) % u32 := by
  unfold bump countIn
  cases h : alookup t kd.1 with
  | none => simp [alookup_aset_self, alookup]
  | some e => simp [alookup_aset_self]

/-- Other slots are unchanged by a bump. -/
theorem countIn_bump_ne (t : Table) (kd : (Int × Int) × Int)
    (k : Int × Int) (d : Int) (h : ¬(kd.1 = k ∧ kd.2 = d)) :
    countIn (bump t kd) k d = countIn t k d := by
  unfold bump countIn
  by_cases hk : kd.1 = k
  · have hd : kd.2 ≠ d := fun hdd => h ⟨hk, hdd⟩
    rw [hk, alookup_aset_self]
    cases hm : alookup t k with
    | none =>
      simp [alookup_aset_ne _ _ _ _ (fun hh => hd hh.symm), alookup, hd]
    | some e =>
      simp [alookup_aset_ne _ _ _ _ (fun hh => hd hh.symm), hd]
  · rw [alookup_aset_ne _ _ _ _ (fun hh => hk hh.symm)]

theorem totalIn_bump_self (t : Table) (kd : (Int × Int) × Int) :
    totalIn (bump t kd) kd.1 = (totalIn t kd.1 + 1) % u32 := by
  unfold bump totalIn
  cases h : alookup t kd.1 with
  | none => simp [alookup_aset_self]
  | some e => simp [alookup_aset_self]

theorem totalIn_bump_ne (t : Table) (kd : (Int × Int) × Int)
    (k : Int × Int) (h : ¬kd.1 = k) :
    totalIn (bump t kd) k = totalIn t k := by
  unfold bump totalIn
  rw [alookup_aset_ne _ _ _ _ (fun hh => h hh.symm)]

theorem countIn_eq_none (t : Table) (k : Int × Int) (d : Int)
    (h : alookup t k = none) : countIn t k d = 0 := by
  unfold countIn
  rw [h]

theorem countIn_eq_some (t : Table) (k : Int × Int) (d : Int)
    (e : PatternEntry) (h : alookup t k = some e) :
    countIn t k d = (alookup e.counts d).getD 0 := by
  unfold countIn
  rw [h]

theorem totalIn_eq_none (t : Table) (k : Int × Int)
    (h : alookup t k = none) : totalIn t k = 0 := by
  unfold totalIn
  rw [h]

theorem totalIn_eq_some (t : Table) (k : Int × Int) (e : PatternEntry)
    (h : alookup t k = some e) : totalIn t k = e.total := by
  unfold totalIn
  rw [h]

theorem countIn_lt (t : Table) (k : Int × Int) (d : Int) (h : tableWF t) :
    countIn t k d < u32 := by
  cases hm : alookup t k with
  | none => rw [countIn_eq_none t k d hm]; exact u32_pos
  | some e =>
    rw [countIn_eq_some t k d e hm]
    cases hc : alookup e.counts d with
    | none => exact u32_pos
    | some v =>
      have he := h _ (alookup_mem _ _ _ hm)
      exact he.2.2.2 _ (alookup_mem _ _ _ hc)

theorem totalIn_lt (t : Table) (k : Int × Int) (h : tableWF t) :
    totalIn t k < u32 := by
  cases hm : alookup t k with
  | none => rw [totalIn_eq_none t k hm]; exact u32_pos
  | some e =>
    rw [totalIn_eq_some t k e hm]
    exact (h _ (alookup_mem _ _ _ hm)).1

/-- Bumping one count of a well-formed entry keeps it well-formed. -/
theorem entryWF_bump (e : PatternEntry) (d : Int) (_h1 : e.total < u32)
    (h2 : e.total = sumCounts e.counts % u32)
    (h3 : ∀ q ∈ e.counts, q.2 < u32) :
    entryWF
      { counts := aset e.counts d (((alookup e.counts d).getD 0 + 1) % u32)
        total := (e.total + 1) % u32 } := by
  refine ⟨Nat.mod_lt _ u32_pos, ?_, aset_ne_nil _ _ _, ?_⟩
  · show (e.total + 1) % u32 =
      sumCounts (aset e.counts d (((alookup e.counts d).getD 0 + 1) % u32)) %
        u32
    have hsum := sumCounts_aset e.counts d
      (((alookup e.counts d).getD 0 + 1) % u32)
    have hmod : (sumCounts (aset e.counts d
          (((alookup e.counts d).getD 0 + 1) % u32)) +
        (alookup e.counts d).getD 0) % u32 =
        (sumCounts e.counts + 1 + (alookup e.counts d).getD 0) % u32 := by
      rw [hsum, Nat.add_comm (sumCounts e.counts), Nat.mod_add_mod]
      have harr : (alookup e.counts d).getD 0 + 1 + sumCounts e.counts =
          sumCounts e.counts + 1 + (alookup e.counts d).getD 0 := by omega
      rw [harr]
    have hcancel : sumCounts (aset e.counts d
          (((alookup e.counts d).getD 0 + 1) % u32)) % u32 =
        (sumCounts e.counts + 1) % u32 :=
      Nat.ModEq.add_right_cancel' _ hmod
    rw [h2, Nat.mod_add_mod, hcancel]
  · intro q hq
    rcases mem_aset _ _ _ _ hq with h4 | h4
    · rw [h4]
      exact Nat.mod_lt _ u32_pos
    · exact h3 _ h4

/-- A bump preserves the table invariant. -/
theorem bump_wf (t : Table) (kd : (Int × Int) × Int) (h : tableWF t) :
    tableWF (bump t kd) := by
  intro p hp
  unfold bump at hp
  rcases mem_aset _ _ _ _ hp with hnew | hold
  · have hp2 : p.2 =
        { counts := aset ((alookup t kd.1).getD {}).counts kd.2
            (((alookup ((alookup t kd.1).getD {}).counts kd.2).getD 0 + 1) %
              u32)
          total := (((alookup t kd.1).getD {}).total + 1) % u32 } := by
      rw [hnew]
    rw [hp2]
    cases hm : alookup t kd.1 with
    | none =>
      exact entryWF_bump {} kd.2 u32_pos (by simp [sumCounts])
        (by intro q hq; simp at hq)
    | some e0 =>
      have h0 := h _ (alookup_mem _ _ _ hm)
      exact entryWF_bump e0 kd.2 h0.1 h0.2.1 h0.2.2.2
  · exact h _ hold

theorem foldl_bump_wf (l : List ((Int × Int) × Int)) :
    ∀ (t : Table), tableWF t → tableWF (l.foldl bump t) := by
  induction l with
  | nil => intro t h; exact h
  | cons x rest ih => intro t h; exact ih _ (bump_wf t x h)

/-- The count of one slot after a sequence of bumps: the old count plus
the number of matching increments, modulo 2^32. -/
theorem foldl_bump_countIn (k : Int × Int) (d : Int) :
    ∀ (l : List ((Int × Int) × Int)) (t : Table), tableWF t →
      countIn (l.foldl bump t) k d =
        (countIn t k d +
          (l.filter (fun x => x.1 = k ∧ x.2 = d)).length) % u32 := by
  intro l
  induction l with
  | nil =>
    intro t h
    simp [Nat.mod_eq_of_lt (countIn_lt t k d h)]
  | cons x rest ih =>
    intro t h
    rw [List.foldl_cons, ih (bump t x) (bump_wf t x h)]
    by_cases hx : x.1 = k ∧ x.2 = d
    · rw [show countIn (bump t x) k d = (countIn t k d + 1) % u32 by
        rw [← hx.1, ← hx.2]; exact countIn_bump_self t x]
      rw [Nat.mod_add_mod]
      have hfil : (List.filter (fun x => decide (x.1 = k ∧ x.2 = d))
          (x :: rest)).length =
          (List.filter (fun x => decide (x.1 = k ∧ x.2 = d)) rest).length +
            1 := by
        simp [List.filter_cons, hx]
      rw [hfil]
      congr 1
      omega
    · rw [countIn_bump_ne t x k d hx]
      have hfil : (List.filter (fun x => decide (x.1 = k ∧ x.2 = d))
          (x :: rest)).length =
          (List.filter (fun x => decide (x.1 = k ∧ x.2 = d)) rest).length := by
        simp [List.filter_cons, hx]
      rw [hfil]

theorem foldl_bump_totalIn (k : Int × Int) :
    ∀ (l : List ((Int × Int) × Int)) (t : Table), tableWF t →
      totalIn (l.foldl bump t) k =
        (totalIn t k + (l.filter (fun x => x.1 = k)).length) % u32 := by
  intro l
  induction l with
  | nil =>
    intro t h
    simp [Nat.mod_eq_of_lt (totalIn_lt t k h)]
  | cons x rest ih =>
    intro t h
    rw [List.foldl_cons, ih (bump t x) (bump_wf t x h)]
    by_cases hx : x.1 = k
    · rw [show totalIn (bump t x) k = (totalIn t k + 1) % u32 by
        rw [← hx]; exact totalIn_bump_self t x]
      rw [Nat.mod_add_mod]
      have hfil : (List.filter (fun x => decide (x.1 = k)) (x :: rest)).length =
          (List.filter (fun x => decide (x.1 = k)) rest).length + 1 := by
        simp [List.filter_cons, hx]
      rw [hfil]
      congr 1
      omega
    · rw [totalIn_bump_ne t x k hx]
      have hfil : (List.filter (fun x => decide (x.1 = k)) (x :: rest)).length =
          (List.filter (fun x => decide (x.1 = k)) rest).length := by
        simp [List.filter_cons, hx]
      rw [hfil]

theorem incList_short (w : List Int) (h : w.length < 3) : incList w = [] := by
  have h2 : w.length - 2 = 0 := by omega
  simp [incList, h2]

theorem updatePT_wf (t : Table) (w : List Int) (h : tableWF t) :
    tableWF (updatePT t w) := by
  unfold updatePT
  split
  · exact h
  · exact foldl_bump_wf _ t h

theorem updatePT_countIn (t : Table) (w : List Int) (k : Int × Int) (d : Int)
    (h : tableWF t) :
    countIn (updatePT t w) k d = (countIn t k d + incCountOf w k d) % u32 := by
  unfold updatePT
  split
  · rename_i hlen
    rw [show incCountOf w k d = 0 by
      simp [incCountOf, incList_short w hlen]]
    simp [Nat.mod_eq_of_lt (countIn_lt t k d h)]
  · exact foldl_bump_countIn k d _ t h

theorem updatePT_totalIn (t : Table) (w : List Int) (k : Int × Int)
    (h : tableWF t) :
    totalIn (updatePT t w) k = (totalIn t k + incTotalOf w k) % u32 := by
  unfold updatePT
  split
  · rename_i hlen
    rw [show incTotalOf w k = 0 by
      simp [incTotalOf, incList_short w hlen]]
    simp [Nat.mod_eq_of_lt (totalIn_lt t k h)]
  · exact foldl_bump_totalIn k _ t h

/-- C8: feeding the same chronological window to `updatePatternTable`
twice increments every (pair, delta) count and every total by exactly
twice the increment of a single call (all in `uint32` arithmetic): the
increments depend only on the window, not on the table state. -/
theorem updatePT_double (t : Table) (w : List Int) (k : Int × Int) (d : Int)
    (hwf : tableWF t) :
    countIn (updatePT t w) k d = (countIn t k d + incCountOf w k d) % u32 ∧
    countIn (updatePT (updatePT t w) w) k d =
      (countIn t k d + 2 * incCountOf w k d) % u32 ∧
    totalIn (updatePT t w) k = (totalIn t k + incTotalOf w k) % u32 ∧
    totalIn (updatePT (updatePT t w) w) k =
      (totalIn t k + 2 * incTotalOf w k) % u32 := by
  refine ⟨updatePT_countIn t w k d hwf, ?_, updatePT_totalIn t w k hwf, ?_⟩
  · rw [updatePT_countIn _ w k d (updatePT_wf t w hwf),
      updatePT_countIn t w k d hwf, Nat.mod_add_mod]
    congr 1
    omega
  · rw [updatePT_totalIn _ w k (updatePT_wf t w hwf),
      updatePT_totalIn t w k hwf, Nat.mod_add_mod]
    congr 1
    omega

/-- C8 witness: one window [1, 2, 3] on the empty table. -/
theorem updatePT_double_witness :
    tableWF ([] : Table) ∧
    (countIn (updatePT [] [1, 2, 3]) (1, 2) 3 =
        (countIn ([] : Table) (1, 2) 3 + incCountOf [1, 2, 3] (1, 2) 3) %
          u32 ∧
      countIn (updatePT (updatePT [] [1, 2, 3]) [1, 2, 3]) (1, 2) 3 =
        (countIn ([] : Table) (1, 2) 3 +
            2 * incCountOf [1, 2, 3] (1, 2) 3) % u32 ∧
      totalIn (updatePT [] [1, 2, 3]) (1, 2) =
        (totalIn ([] : Table) (1, 2) + incTotalOf [1, 2, 3] (1, 2)) % u32 ∧
      totalIn (updatePT (updatePT [] [1, 2, 3]) [1, 2, 3]) (1, 2) =
        (totalIn ([] : Table) (1, 2) +
            2 * incTotalOf [1, 2, 3] (1, 2)) % u32) :=
  ⟨fun p hp => absurd hp (List.not_mem_nil p),
    updatePT_double [] [1, 2, 3] (1, 2) 3 (fun p hp =>
      absurd hp (List.not_mem_nil p))⟩

theorem insert_patternTable (cfg : GHBConfig) (s : GHBState)
    (a : AccessInfo) : (insert cfg s a).1.patternTable = s.patternTable := by
  unfold insert
  split
  · rfl
  · by_cases hf : s.filled = true
    · rw [if_pos hf]
      rfl
    · rw [if_neg hf]
      rfl

/-- Every reachable helper state has a well-formed pattern table. -/
theorem reachable_tableWF (cfg : GHBConfig) (s : GHBState)
    (h : Reachable cfg s) : tableWF s.patternTable := by
  induction h with
  | init => intro p hp; simp [mkGHB] at hp
  | insert s a _ ih => rw [insert_patternTable]; exact ih
  | update s w _ ih => exact updatePT_wf _ _ ih
  | reset s _ _ => intro p hp; simp [resetState] at hp

/-- C6 (amended): in every reachable helper state, every pattern-table
entry satisfies `total = (Σ counts values) mod 2^32` and has a non-empty
counts map.  The claim's "no entry with total = 0" is not an invariant:
the `uint32` total wraps to 0 after exactly 2^32 increments (see the
counterexample). -/
theorem patternTable_invariant (cfg : GHBConfig) (s : GHBState)
    (h : Reachable cfg s) :
    ∀ p ∈ s.patternTable,
      p.2.total = sumCounts p.2.counts % u32 ∧ p.2.counts ≠ [] := by
  intro p hp
  have hw := reachable_tableWF cfg s h p hp
  exact ⟨hw.2.1, hw.2.2.1⟩

theorem c6_reachable : ∀ k : Nat, Reachable cfgA (c6State k) := by
  intro k
  induction k with
  | zero => exact Reachable.init
  | succ n ih =>
    rw [c6State, Function.iterate_succ_apply']
    exact Reachable.update _ [1, 2, 3] ih

/-- C6 witness: the state after one training call is reachable and its
single entry satisfies the invariant. -/
theorem patternTable_invariant_witness :
    Reachable cfgA (c6State 1) ∧
    ∀ p ∈ (c6State 1).patternTable,
      p.2.total = sumCounts p.2.counts % u32 ∧ p.2.counts ≠ [] :=
  ⟨c6_reachable 1, patternTable_invariant cfgA (c6State 1) (c6_reachable 1)⟩

theorem incList_123 : incList [1, 2, 3] = [((1, 2), 3)] := by decide

/-- The table after `k + 1` identical `[1, 2, 3]` training calls: one
entry whose counter has been incremented `k + 1` times modulo 2^32. -/
theorem c6_table : ∀ k : Nat, (c6State (k + 1)).patternTable =
    [((1, 2), { counts := [(3, (k + 1) % u32)], total := (k + 1) % u32 })] := by
  intro k
  induction k with
  | zero => decide
  | succ n ih =>
    rw [show c6State (n + 1 + 1) = c6Step (c6State (n + 1)) from
      Function.iterate_succ_apply' _ _ _]
    show updatePT (c6State (n + 1)).patternTable [1, 2, 3] = _
    rw [ih]
    unfold updatePT
    rw [if_neg (by simp), incList_123]
    simp only [List.foldl_cons, List.foldl_nil]
    unfold bump
    simp [alookup, aset, Nat.mod_add_mod]

/-- C6 counterexample: after 2^32 identical training calls the (reachable)
pattern table holds an entry with `total = 0` — the `uint32` counter has
wrapped — contradicting the claim that no reachable state contains an
entry with zero total. -/
theorem patternTable_total_zero_counterexample :
    Reachable cfgA (c6State 4294967296) ∧
    ((1, 2), ({ counts := [(3, 0)], total := 0 } : PatternEntry)) ∈
      (c6State 4294967296).patternTable := by
  refine ⟨c6_reachable _, ?_⟩
  have h := c6_table 4294967295
  norm_num at h
  rw [h]
  norm_num [u32]

/-! ## findPatternMatch stage lemmas (claim C3) -/

theorem all_ne_mem {l : List Int} {d : Int}
    (h : l.all (fun x => x ≠ d) = true) : d ∉ l := by
  intro hd
  have h2 := List.all_eq_true.mp h d hd
  simp at h2

theorem not_any_near {l : List Int} {a : Int}
    (h : l.any (fun x => (x - a).natAbs ≤ 2) = true → False) : a ∉ l := by
  intro ha
  exact h (List.any_eq_true.mpr ⟨a, ha, by simp⟩)

theorem nodup_push {l : List Int} {d : Int} (h : l.Nodup) (hd : d ∉ l) :
    (l ++ [d]).Nodup := by
  simp [List.nodup_append, h, hd]

theorem mergeCand_keys (cs : List (Int × Nat)) (d : Int) (sc : Nat)
    (h : (cs.map (fun p => p.1)).Nodup) :
    ((mergeCand cs d sc).map (fun p => p.1)).Nodup := by
  unfold mergeCand
  split
  · have heq : (cs.map (fun p => if p.1 = d then (p.1, max p.2 sc) else p)).map
        (fun p => p.1) = cs.map (fun p => p.1) := by
      rw [List.map_map]
      apply List.map_congr_left
      intro p _
      by_cases hpd : p.1 = d <;> simp [hpd]
    rw [heq]
    exact h
  · rename_i hfind
    rw [List.map_append]
    have hd : d ∉ cs.map (fun p => p.1) := by
      intro hmem
      rcases List.mem_map.mp hmem with ⟨p, hp, hpd⟩
      exact hfind (by
        rw [List.find?_isSome]
        exact ⟨p, hp, by simp [hpd]⟩)
    simp [List.nodup_append, h, hd]

theorem candFold_keys_go (e : PatternEntry) (at_ w : Nat) :
    ∀ (l : List (Int × Nat)) (cs : List (Int × Nat)),
      (cs.map (fun p => p.1)).Nodup →
      ((l.foldl (fun cs p =>
          if at_ ≤ confOf e p.2 then
            mergeCand cs p.1 (wscore p.2 (confOf e p.2) w)
          else cs) cs).map (fun p => p.1)).Nodup := by
  intro l
  induction l with
  | nil => intro cs h; exact h
  | cons q rest ih =>
    intro cs h
    rw [List.foldl_cons]
    refine ih _ ?_
    split
    · exact mergeCand_keys _ _ _ h
    · exact h

theorem candFold_keys (e : PatternEntry) (at_ w : Nat)
    (cs : List (Int × Nat)) (h : (cs.map (fun p => p.1)).Nodup) :
    ((candFold e at_ w cs).map (fun p => p.1)).Nodup :=
  candFold_keys_go e at_ w e.counts cs h

theorem processKey_keys (ct : Nat) (t : Table) (st : ScanState)
    (ik : Nat × (Int × Int)) (h : (st.cands.map (fun p => p.1)).Nodup) :
    (((processKey ct t st ik).cands).map (fun p => p.1)).Nodup := by
  unfold processKey
  cases hm : alookup t ik.2 with
  | none => dsimp only; exact h
  | some e =>
    dsimp only
    split
    · exact h
    · exact candFold_keys e _ _ st.cands h

theorem fpmScan_keys (cfg : GHBConfig) (t : Table) (c : List Int) :
    (((fpmScan cfg t c).cands).map (fun p => p.1)).Nodup := by
  unfold fpmScan
  have hgen : ∀ (l : List (Nat × (Int × Int))) (st : ScanState),
      (st.cands.map (fun p => p.1)).Nodup →
      (((l.foldl (processKey cfg.confidenceThreshold t) st).cands).map
        (fun p => p.1)).Nodup := by
    intro l
    induction l with
    | nil => intro st h; exact h
    | cons q rest ih =>
      intro st h
      rw [List.foldl_cons]
      exact ih _ (processKey_keys _ _ _ _ h)
  exact hgen _ _ (by simp)

theorem fpmInitial_nodup (cfg : GHBConfig) (t : Table) (c : List Int) :
    (fpmInitial cfg t c).Nodup := by
  unfold fpmInitial
  have hperm : List.Perm
      ((List.insertionSort scoreLe (fpmScan cfg t c).cands).map
        (fun p => p.1))
      (((fpmScan cfg t c).cands).map (fun p => p.1)) :=
    (List.perm_insertionSort scoreLe _).map _
  have hsorted : ((List.insertionSort scoreLe (fpmScan cfg t c).cands).map
      (fun p => p.1)).Nodup := hperm.nodup_iff.mpr (fpmScan_keys cfg t c)
  exact (List.take_sublist _ _).nodup hsorted

theorem fpmInitial_length (cfg : GHBConfig) (t : Table) (c : List Int) :
    (fpmInitial cfg t c).length ≤ effDegree cfg.degree (fpmScan cfg t c) := by
  unfold fpmInitial
  rw [List.length_take]
  exact min_le_left _ _

theorem backfillLoop_inv (eff th : Nat) (e : PatternEntry) (inp : List Int) :
    ∀ (l : List (Int × Nat)) (pred : List Int), StageInv eff inp pred →
      StageInv eff inp (l.foldl (fun pred p =>
        if eff ≤ pred.length then pred
        else if th ≤ confOf e p.2 ∧ pred.all (fun x => x ≠ p.1) ∧ p.1 ≠ 0 then
          pred ++ [p.1]
        else pred) pred) := by
  intro l
  induction l with
  | nil => intro pred h; exact h
  | cons q rest ih =>
    intro pred h
    rw [List.foldl_cons]
    refine ih _ ?_
    split
    · exact h
    · split
      · rename_i hlen hcond
        refine ⟨nodup_push h.1 (all_ne_mem hcond.2.1), ?_, ?_⟩
        · rw [List.length_append]
          simp only [List.length_singleton]
          omega
        · intro d hd
          rcases List.mem_append.mp hd with h1 | h1
          · exact h.2.2 d h1
          · exact Or.inr (by
              rw [List.mem_singleton.mp h1]
              exact hcond.2.2)
      · exact h

theorem backfillLoop_inv' (eff th : Nat) (e : PatternEntry) (inp : List Int)
    (pred : List Int) (h : StageInv eff inp pred) :
    StageInv eff inp (backfillLoop eff th e pred) :=
  backfillLoop_inv eff th e inp e.counts pred h

theorem backfillSecondary_inv (t : Table) (eff th : Nat)
    (keys : List (Int × Int)) (inp : List Int) (pred : List Int)
    (h : StageInv eff inp pred) :
    StageInv eff inp (backfillSecondary t eff th keys pred) := by
  unfold backfillSecondary
  have hgen : ∀ (l : List (Int × Int)) (pred : List Int),
      StageInv eff inp pred →
      StageInv eff inp (l.foldl (fun pred key =>
        if eff ≤ pred.length then pred
        else
          match alookup t key with
          | none => pred
          | some e => if e.total < 3 then pred else backfillLoop eff th e pred)
        pred) := by
    intro l
    induction l with
    | nil => intro pred h; exact h
    | cons q rest ih =>
      intro pred h
      rw [List.foldl_cons]
      refine ih _ ?_
      split
      · exact h
      · split
        · exact h
        · split
          · exact h
          · rename_i e heq hge
            exact backfillLoop_inv' eff th e inp pred h
  exact hgen _ _ h

theorem backfillStage_inv (t : Table) (eff ba : Nat)
    (keys : List (Int × Int)) (inp : List Int) (pred : List Int)
    (h : StageInv eff inp pred) :
    StageInv eff inp (backfillStage t eff ba keys pred) := by
  unfold backfillStage backfillStage2
  split
  · have h1 : StageInv eff inp
        (match alookup t (keys.getD 0 (0, 0)) with
         | some e => backfillLoop eff (max 25 (usub32 ba 10)) e pred
         | none => pred) := by
      split
      · rename_i e heq
        exact backfillLoop_inv' _ _ e inp pred h
      · exact h
    split
    · exact backfillSecondary_inv t eff _ keys inp _ h1
    · exact h1
  · exact h

theorem addFirstOk_inv (eff : Nat) (inp : List Int) :
    ∀ (cands : List (Int × Nat)) (pred : List Int), StageInv eff inp pred →
      StageInv eff inp (addFirstOk eff pred cands) := by
  intro cands
  induction cands with
  | nil => intro pred h; exact h
  | cons q rest ih =>
    intro pred h
    unfold addFirstOk
    split
    · exact h
    · split
      · rename_i hlen hcond
        refine ⟨nodup_push h.1 (all_ne_mem hcond.1), ?_, ?_⟩
        · rw [List.length_append]
          simp only [List.length_singleton]
          omega
        · intro d hd
          rcases List.mem_append.mp hd with h1 | h1
          · exact h.2.2 d h1
          · exact Or.inr (by
              rw [List.mem_singleton.mp h1]
              exact hcond.2)
      · exact ih pred h

theorem chainStage_inv (t : Table) (eff ba : Nat) (lastDelta : Int)
    (inp : List Int) :
    ∀ (fuel attempt : Nat) (pred : List Int), StageInv eff inp pred →
      StageInv eff inp (chainStage t eff ba lastDelta fuel attempt pred) := by
  intro fuel
  induction fuel with
  | zero => intro attempt pred h; exact h
  | succ n ih =>
    intro attempt pred h
    unfold chainStage
    dsimp only
    split
    · exact h
    · split
      · exact h
      · split
        · exact h
        · exact ih _ _ (addFirstOk_inv eff inp _ pred h)

theorem chainWrap_inv (t : Table) (eff ba : Nat) (c : List Int)
    (inp : List Int) (pred : List Int) (h : StageInv eff inp pred) :
    StageInv eff inp (chainWrap t eff ba c pred) := by
  unfold chainWrap
  split
  · exact chainStage_inv t eff ba _ inp _ 0 pred h
  · exact h

theorem amp1Push_inv (eff : Nat) (stride : Int) (hst : stride ≠ 0)
    (inp : List Int) :
    ∀ (fuel : Nat) (pred : List Int), StageInv eff inp pred →
      StageInv eff inp (amp1Push eff stride fuel pred) := by
  intro fuel
  induction fuel with
  | zero => intro pred h; exact h
  | succ n ih =>
    intro pred h
    unfold amp1Push
    dsimp only
    split
    · exact h
    · split
      · exact h
      · rename_i hlen hany
        refine ih _ ⟨nodup_push h.1 (not_any_near hany), ?_, ?_⟩
        · rw [List.length_append]
          simp only [List.length_singleton]
          omega
        · intro d hd
          rcases List.mem_append.mp hd with h1 | h1
          · exact h.2.2 d h1
          · refine Or.inr (by
              rw [List.mem_singleton.mp h1]
              exact mul_ne_zero hst (by positivity))

theorem amp1Stage_inv (eff : Nat) (lastDelta : Int) (inp : List Int)
    (pred : List Int) (h : StageInv eff inp pred) :
    StageInv eff inp (amp1Stage eff lastDelta pred) := by
  unfold amp1Stage
  cases hf : pred.find? (fun p =>
      (p = lastDelta ∨ (p - lastDelta).natAbs ≤ 2) ∧ 0 < p.natAbs ∧
        p.natAbs < 300) with
  | none => dsimp only; exact h
  | some p =>
    dsimp only
    have hp := List.find?_some hf
    have hnz : p ≠ 0 := by
      simp only [decide_eq_true_eq, Bool.and_eq_true] at hp
      intro h0
      rw [h0] at hp
      simp at hp
    exact amp1Push_inv eff p hnz inp eff pred h

theorem amp2Push_inv (eff : Nat) (sc : Int) (hsc : sc ≠ 0) (inp : List Int)
    (ac : Nat) (pred : List Int) (h : StageInv eff inp pred) :
    StageInv eff inp (amp2Push eff sc ac pred) := by
  unfold amp2Push
  have hgen : ∀ (l : List Nat) (pred : List Int), StageInv eff inp pred →
      StageInv eff inp (l.foldl (fun pred (i : Nat) =>
        if eff ≤ pred.length then pred
        else
          if pred.any (fun x => (x - sc * ((i : Int) + 1)).natAbs ≤ 2) then
            pred
          else pred ++ [sc * ((i : Int) + 1)]) pred) := by
    intro l
    induction l with
    | nil => intro pred h; exact h
    | cons j rest ih =>
      intro pred h
      rw [List.foldl_cons]
      refine ih _ ?_
      split
      · exact h
      · split
        · exact h
        · rename_i hlen hany
          refine ⟨nodup_push h.1 (not_any_near hany), ?_, ?_⟩
          · rw [List.length_append]
            simp only [List.length_singleton]
            omega
          · intro d hd
            rcases List.mem_append.mp hd with h1 | h1
            · exact h.2.2 d h1
            · refine Or.inr (by
                rw [List.mem_singleton.mp h1]
                exact mul_ne_zero hsc (by positivity))
  exact hgen _ pred h

theorem ampStage_inv (eff : Nat) (c : List Int) (inp : List Int)
    (pred : List Int) (h : StageInv eff inp pred) :
    StageInv eff inp (ampStage eff c pred) := by
  unfold ampStage
  dsimp only
  split
  · have h1 := amp1Stage_inv eff (c.getD (c.length - 1) 0) inp pred h
    split
    · split
      · rename_i hl
        split
        · exact amp2Push_inv eff _ hl.1 inp _ _ h1
        · exact h1
      · exact h1
    · exact h1
  · exact h

/-- C3 (amended): `findPatternMatch` emits at most `effective_degree`
deltas and no two emitted deltas are equal; every delta added after the
initial candidate emission (by backfill, chaining or amplification) is
non-zero, but the initial emission itself can contain a zero delta learned
by the table (see the counterexample). -/
theorem findPatternMatch_shape (cfg : GHBConfig) (t : Table) (c : List Int) :
    (findPatternMatch cfg t c).2.Nodup ∧
    (findPatternMatch cfg t c).2.length ≤
      effDegree cfg.degree (fpmScan cfg t c) ∧
    ∀ d ∈ (findPatternMatch cfg t c).2, d ∈ fpmInitial cfg t c ∨ d ≠ 0 := by
  unfold findPatternMatch
  split
  · exact ⟨List.nodup_nil, Nat.zero_le _, by simp⟩
  · split
    · exact ⟨List.nodup_nil, Nat.zero_le _, by simp⟩
    · have hinit : StageInv (effDegree cfg.degree (fpmScan cfg t c))
          (fpmInitial cfg t c) (fpmInitial cfg t c) :=
        ⟨fpmInitial_nodup cfg t c, fpmInitial_length cfg t c,
          fun d hd => Or.inl hd⟩
      have hbf := backfillStage_inv t (effDegree cfg.degree (fpmScan cfg t c))
        (fpmScan cfg t c).bestAdaptive (patternKeys c) (fpmInitial cfg t c)
        (fpmInitial cfg t c) hinit
      have hcw := chainWrap_inv t (effDegree cfg.degree (fpmScan cfg t c))
        (fpmScan cfg t c).bestAdaptive c (fpmInitial cfg t c)
        (backfillStage t (effDegree cfg.degree (fpmScan cfg t c))
          (fpmScan cfg t c).bestAdaptive (patternKeys c)
          (fpmInitial cfg t c)) hbf
      have hfin := ampStage_inv (effDegree cfg.degree (fpmScan cfg t c)) c
        (fpmInitial cfg t c)
        (chainWrap t (effDegree cfg.degree (fpmScan cfg t c))
          (fpmScan cfg t c).bestAdaptive c
          (backfillStage t (effDegree cfg.degree (fpmScan cfg t c))
            (fpmScan cfg t c).bestAdaptive (patternKeys c)
            (fpmInitial cfg t c))) hcw
      dsimp only
      exact ⟨hfin.1, hfin.2.1, hfin.2.2⟩

/-- C3 witness: on the zero-delta table the (single) emitted delta obeys
the bound and distinctness. -/
theorem findPatternMatch_shape_witness :
    (findPatternMatch cfgD tD [1, 2]).2.Nodup ∧
    (findPatternMatch cfgD tD [1, 2]).2.length ≤
      effDegree cfgD.degree (fpmScan cfgD tD [1, 2]) ∧
    ∀ d ∈ (findPatternMatch cfgD tD [1, 2]).2,
      d ∈ fpmInitial cfgD tD [1, 2] ∨ d ≠ 0 :=
  findPatternMatch_shape cfgD tD [1, 2]

/-- C3 counterexample: with the pair (1, 2) mapping to delta 0 with
certainty, `findPatternMatch` reports success and its prediction list
[0] contains a zero delta, contradicting the claim that every emitted
delta is non-zero. -/
theorem findPatternMatch_zero_counterexample :
    findPatternMatch cfgD tD [1, 2] = (true, [0]) ∧
    (0 : Int) ∈ (findPatternMatch cfgD tD [1, 2]).2 :=
  ⟨by decide, by decide⟩

/-! ## Fallback lemmas (claim C10) -/

theorem getD_zero_of_all_zero (c : List Int) (h : ∀ d ∈ c, d = 0) (n : Nat) :
    c.getD n 0 = 0 := by
  by_cases hn : n < c.length
  · rw [List.getD_eq_getElem _ _ hn]
    exact h _ (List.getElem_mem hn)
  · exact List.getD_eq_default _ _ (Nat.le_of_not_lt hn)

theorem fbBuild_zero (c : List Int) (h : ∀ d ∈ c, d = 0) (lb : Nat) :
    fbBuild c lb = [] := by
  unfold fbBuild
  suffices hgen : ∀ js : List Nat, (js.foldl (fun m j =>
      if c.getD (c.length - j - 1) 0 ≠ 0 then
        aset m (c.getD (c.length - j - 1) 0)
          (((alookup m (c.getD (c.length - j - 1) 0)).getD (0, 0)).1 + 1,
            max ((alookup m (c.getD (c.length - j - 1) 0)).getD (0, 0)).2
              (c.length - (c.length - j) + 1))
      else m) []) = [] from hgen _
  intro js
  induction js with
  | nil => rfl
  | cons j rest ih =>
    rw [List.foldl_cons,
      if_neg (by rw [getD_zero_of_all_zero c h]; simp)]
    exact ih

/-- One backfill step of the fallback tail keeps a non-empty list
non-empty. -/
theorem fbTail_step_ne (cfg : GHBConfig) (pred : List Int) (d : Int)
    (h : pred ≠ []) :
    (if cfg.degree ≤ pred.length then pred
     else if d ≠ 0 ∧ pred.all (fun x => x ≠ d) then pred ++ [d]
     else pred) ≠ [] := by
  split
  · exact h
  · split
    · simp
    · exact h

theorem fbTail_fold_ne (cfg : GHBConfig) (hdeg : 1 ≤ cfg.degree) :
    ∀ (l : List Int) (pred : List Int),
      (pred ≠ [] ∨ ∃ d ∈ l, d ≠ 0) →
      (l.foldl (fun pred d =>
        if cfg.degree ≤ pred.length then pred
        else if d ≠ 0 ∧ pred.all (fun x => x ≠ d) then pred ++ [d]
        else pred) pred) ≠ [] := by
  intro l
  induction l with
  | nil =>
    intro pred h
    rcases h with h | ⟨d, hd, _⟩
    · exact h
    · exact absurd hd (List.not_mem_nil d)
  | cons d rest ih =>
    intro pred h
    rw [List.foldl_cons]
    rcases h with hpred | ⟨w, hw, hwz⟩
    · exact ih _ (Or.inl (fbTail_step_ne cfg pred d hpred))
    · by_cases hpred : pred = []
      · subst hpred
        rcases List.mem_cons.mp hw with rfl | hw2
        · refine ih _ (Or.inl ?_)
          rw [if_neg (by simp only [List.length_nil]; omega),
            if_pos ⟨hwz, by simp⟩]
          simp
        · refine ih _ ?_
          by_cases hdz : d = 0
          · exact Or.inr ⟨w, hw2, hwz⟩
          · refine Or.inl ?_
            rw [if_neg (by simp only [List.length_nil]; omega),
              if_pos ⟨hdz, by simp⟩]
            simp
      · exact ih _ (Or.inl (fbTail_step_ne cfg pred d hpred))

theorem fbTail_zero (cfg : GHBConfig) (c : List Int)
    (h : ∀ d ∈ c, d = 0) : fbTail cfg c [] = [] := by
  unfold fbTail
  simp only [List.map_nil, List.take_nil]
  suffices hgen : ∀ (l : List Int), (∀ d ∈ l, d = 0) →
      (l.foldl (fun pred d =>
        if cfg.degree ≤ pred.length then pred
        else if d ≠ 0 ∧ pred.all (fun x => x ≠ d) then pred ++ [d]
        else pred) []) = [] by
    exact hgen c.reverse (fun d hd => h d (List.mem_reverse.mp hd))
  intro l
  induction l with
  | nil => intro _; rfl
  | cons d rest ih =>
    intro hz
    rw [List.foldl_cons]
    have hd0 : d = 0 := hz d (List.mem_cons_self d rest)
    have hstep : (if cfg.degree ≤ ([] : List Int).length then ([] : List Int)
        else if d ≠ 0 ∧ ([] : List Int).all (fun x => x ≠ d) then [] ++ [d]
        else []) = [] := by
      split
      · rfl
      · rw [if_neg (fun hc => hc.1 hd0)]
    rw [hstep]
    exact ih (fun x hx => hz x (List.mem_cons_of_mem d hx))

theorem fbTail_ne_nil (cfg : GHBConfig) (c : List Int)
    (sorted : List (Int × Nat)) (hdeg : 1 ≤ cfg.degree)
    (h : sorted ≠ [] ∨ ∃ d ∈ c, d ≠ 0) : fbTail cfg c sorted ≠ [] := by
  unfold fbTail
  refine fbTail_fold_ne cfg hdeg c.reverse _ ?_
  rcases h with hs | ⟨d, hd, hdz⟩
  · refine Or.inl ?_
    have hlen : 0 < ((sorted.map (fun p => p.1)).take cfg.degree).length := by
      rw [List.length_take, List.length_map]
      have : 0 < sorted.length := List.length_pos.mpr hs
      omega
    exact List.ne_nil_of_length_pos hlen
  · exact Or.inr ⟨d, List.mem_reverse.mpr hd, hdz⟩

theorem fbPrefetchCount_pos (d cc : Nat) (hd : 1 ≤ d) (hw : d * 6 < u32) :
    1 ≤ fbPrefetchCount d cc := by
  unfold fbPrefetchCount
  have h6 : d * 6 % u32 = d * 6 := Nat.mod_eq_of_lt hw
  have h5 : d * 5 % u32 = d * 5 := Nat.mod_eq_of_lt (by omega)
  have h4 : d * 4 % u32 = d * 4 := Nat.mod_eq_of_lt (by omega)
  have h2 : d * 2 % u32 = d * 2 := Nat.mod_eq_of_lt (by omega)
  split
  · rw [h6]; omega
  · split
    · rw [h5]; omega
    · split
      · rw [h4]; omega
      · split
        · rw [h2]; omega
        · omega

/-- An all-zero chronological sequence produces no fallback prediction. -/
theorem fallbackPattern_all_zero (cfg : GHBConfig) (c : List Int)
    (h : ∀ d ∈ c, d = 0) : fallbackPattern cfg c = [] := by
  unfold fallbackPattern
  split
  · rfl
  · dsimp only
    rw [fbBuild_zero c h]
    show fbTail cfg c [] = []
    exact fbTail_zero cfg c h

/-- A chronological sequence with some non-zero delta always produces a
fallback prediction (absent `uint32` wrap of the prefetch-count ladder). -/
theorem fallbackPattern_nonzero (cfg : GHBConfig) (c : List Int)
    (hdeg : 1 ≤ cfg.degree) (hw : cfg.degree * 6 < u32)
    (hex : ∃ d ∈ c, d ≠ 0) : fallbackPattern cfg c ≠ [] := by
  have hc : ¬c.isEmpty = true := by
    rcases hex with ⟨d, hd, _⟩
    cases c with
    | nil => exact absurd hd (List.not_mem_nil d)
    | cons x xs => simp
  unfold fallbackPattern
  rw [if_neg hc]
  dsimp only
  split
  · exact fbTail_ne_nil cfg c _ hdeg (Or.inr hex)
  · rename_i top hsome
    have hsne : List.insertionSort
        (fbLe (fbBuild c (min c.length cfg.patternLength)))
        ((fbBuild c (min c.length cfg.patternLength)).map
          (fun p => (p.1, p.2.1))) ≠ [] := by
      intro h0
      rw [h0] at hsome
      simp at hsome
    split
    · split
      · intro hmap
        have hpos := fbPrefetchCount_pos cfg.degree (consecCount c top.1) hdeg hw
        have hlen := congrArg List.length hmap
        simp only [List.length_map, List.length_range, List.length_nil] at hlen
        omega
      · exact fbTail_ne_nil cfg c _ hdeg (Or.inl hsne)
    · exact fbTail_ne_nil cfg c _ hdeg (Or.inl hsne)

/-- C10 (amended): `fallbackPattern` produces a non-empty prediction list
iff the chronological sequence contains a non-zero delta anywhere
(the final backfill scans the whole sequence, not only the lookback
window), provided the `unsigned` products `degree * k` of the stride
ladder do not wrap (`6 * degree < 2^32`); an all-zero sequence yields an
empty prediction. -/
theorem fallback_nonempty_iff (cfg : GHBConfig) (c : List Int)
    (hdeg : 1 ≤ cfg.degree) (hw : cfg.degree * 6 < u32) :
    fallbackPattern cfg c ≠ [] ↔ ∃ d ∈ c, d ≠ 0 := by
  constructor
  · intro hne
    by_contra hall
    push_neg at hall
    exact hne (fallbackPattern_all_zero cfg c hall)
  · exact fallbackPattern_nonzero cfg c hdeg hw

/-- C10 witness: [0, 5] has a non-zero delta beyond position 0, so the
fallback predicts something. -/
theorem fallback_nonempty_iff_witness :
    (1 ≤ cfgA.degree ∧ cfgA.degree * 6 < u32) ∧
    (fallbackPattern cfgA [0, 5] ≠ [] ↔ ∃ d ∈ ([0, 5] : List Int), d ≠ 0) :=
  ⟨⟨by decide, by decide⟩,
    fallback_nonempty_iff cfgA [0, 5] (by decide) (by decide)⟩

/-- C10 counterexample: eight consecutive deltas of 1 give the stride
path a run of eight, and at degree 2^31 the `unsigned` product
`degree * 6` wraps to 0, so `fallbackPattern` emits an empty list
although every delta of the sequence is non-zero. -/
theorem fallback_wrap_counterexample :
    fallbackPattern cfgE [1, 1, 1, 1, 1, 1, 1, 1] = [] ∧
    (1 : Int) ∈ ([1, 1, 1, 1, 1, 1, 1, 1] : List Int) ∧ (1 : Int) ≠ 0 :=
  ⟨by decide, by decide, by decide⟩

end GHB
